import Mathlib

/-!
A shallow embedding of the graph library (`abc.py`): the `Graph` data model
with its three representation views, and the traversal / connectivity
algorithms built on the adjacency-list view.

Modelling conventions:
* Python `float` weights are modelled as `Int`: the code never performs
  arithmetic on weights, it only stores, copies and compares them, so an
  exact type is faithful.
* Python's stable `sort` / `sorted` is modelled by the stable
  `List.insertionSort` (any two stable sorts agree pointwise).
* Python dictionaries keyed `0..n-1` are modelled as lists indexed by
  position; `dict[u]` becomes `List.getD u`.
* `Graph.add_edge` is abstract in the source, so the adjacency storage is an
  arbitrary list of `(neighbor, weight)` records per vertex; well-formedness
  (`Graph.WF`) captures exactly what a `Graph.__init__`-initialised object
  guarantees: one entry per vertex and in-range neighbor ids.
* The unbounded `while queue:` loop of BFS and the recursion of DFS are
  modelled with a fuel parameter; fuel sufficiency is proved, so with the
  fuel used by the wrappers the embedding computes the loop's true result.
-/

/-- Errors raised by the library: `ValueError` ("invalid argument") and
`IndexError` ("index out of range") in the Python source. -/
inductive GraphError where
  | invalidArgument : GraphError
  | indexOutOfRange : GraphError
deriving DecidableEq

/-- The graph data model: vertex count, mode flags and the internal
adjacency storage `_adjacency_list` mapping each vertex to its list of
`(neighbor, weight)` records. -/
structure Graph where
  vertices : Nat
  directed : Bool
  weighted : Bool
  adjacency : List (List (Nat × Int))
deriving DecidableEq

/-- Well-formedness of the storage: exactly one record list per vertex
(`__init__` creates keys `0..n-1`) and every stored neighbor id in range
(as `add_edge` implementations validate via `_check_vertex`). -/
def Graph.WF (g : Graph) : Prop :=
  g.adjacency.length = g.vertices ∧ ∀ l ∈ g.adjacency, ∀ p ∈ l, p.1 < g.vertices

instance (g : Graph) : Decidable g.WF :=
  inferInstanceAs
    (Decidable (g.adjacency.length = g.vertices ∧
      ∀ l ∈ g.adjacency, ∀ p ∈ l, p.1 < g.vertices))

/-- Existence of a stored record `u → v` (some weight) in the adjacency
storage. -/
def Graph.hasEdge (g : Graph) (u v : Nat) : Prop :=
  ∃ p ∈ g.adjacency.getD u [], p.1 = v

instance (g : Graph) (u v : Nat) : Decidable (g.hasEdge u v) :=
  inferInstanceAs (Decidable (∃ p ∈ g.adjacency.getD u [], p.1 = v))

/-- Absence of self-loop records in the storage (the documented `add_edge`
invariant). -/
def Graph.noSelfLoops (g : Graph) : Prop :=
  ∀ u ∈ List.range g.adjacency.length, ∀ p ∈ g.adjacency.getD u [], p.1 ≠ u

instance (g : Graph) : Decidable g.noSelfLoops :=
  inferInstanceAs (Decidable (∀ u ∈ List.range g.adjacency.length, _))

/-- Symmetry of the storage as a relation: a record `u → v` exists exactly
when a record `v → u` does (the usual both-sides storage of an undirected
graph). -/
def Graph.symmetricStorage (g : Graph) : Prop :=
  ∀ u ∈ List.range g.vertices, ∀ v ∈ List.range g.vertices,
    (g.hasEdge u v ↔ g.hasEdge v u)

instance (g : Graph) : Decidable g.symmetricStorage :=
  inferInstanceAs (Decidable (∀ u ∈ List.range g.vertices, _))

instance : IsTotal (Nat × Int) (fun a b => a.1 ≤ b.1) :=
  ⟨fun a b => Nat.le_total a.1 b.1⟩

instance : IsTrans (Nat × Int) (fun a b => a.1 ≤ b.1) :=
  ⟨fun _ _ _ hab hbc => Nat.le_trans hab hbc⟩

/-- `Graph.get_adjacency_list`: a fresh copy of the storage with each
vertex's records sorted (stably) by neighbor id (`key=lambda x: x[0]`). -/
def get_adjacency_list (g : Graph) : List (List (Nat × Int)) :=
  g.adjacency.map (fun ns => ns.insertionSort (fun a b => a.1 ≤ b.1))

/-- `Graph.get_adjacency_matrix`: an `n × n` matrix of zeros, overwritten by
`matrix[u][v] = weight` for every record `(v, weight)` of vertex `u`. -/
def get_adjacency_matrix (g : Graph) : List (List Int) :=
  (List.range g.vertices).map (fun u =>
    (g.adjacency.getD u []).foldl (fun row p => row.set p.1 p.2)
      (List.replicate g.vertices 0))

/-- Edge collection pass of `Graph.get_incidence_matrix`: every stored
record `(u, v)` for directed graphs, only records with `u < v` for
undirected graphs, in storage scan order. -/
def collectIncEdges (g : Graph) : List (Nat × Nat) :=
  (List.range g.vertices).foldl
    (fun es u =>
      (g.adjacency.getD u []).foldl
        (fun es2 p =>
          if g.directed then es2 ++ [(u, p.1)]
          else if u < p.1 then es2 ++ [(u, p.1)] else es2)
        es)
    []

/-- Lexicographic order on pairs, the sort key `(x[0], x[1])` of the edge
list in `get_incidence_matrix`. -/
def lexLe (a b : Nat × Nat) : Prop :=
  a.1 < b.1 ∨ (a.1 = b.1 ∧ a.2 ≤ b.2)

instance : DecidableRel lexLe := fun a b =>
  inferInstanceAs (Decidable (a.1 < b.1 ∨ (a.1 = b.1 ∧ a.2 ≤ b.2)))

instance : IsTotal (Nat × Nat) lexLe :=
  ⟨fun a b => by unfold lexLe; omega⟩

instance : IsTrans (Nat × Nat) lexLe :=
  ⟨fun a b c => by unfold lexLe; omega⟩

/-- The sorted column list of `get_incidence_matrix` (both modes sort by the
same key). -/
def incEdges (g : Graph) : List (Nat × Nat) :=
  (collectIncEdges g).insertionSort lexLe

/-- One iteration of the column-filling loop of `get_incidence_matrix`:
`incidence_matrix[u][col] := -1; incidence_matrix[v][col] := +1` for a
directed edge, `+1` at both rows for an undirected edge. -/
def applyColumn (directed : Bool) (M : List (List Int)) (c : Nat) (e : Nat × Nat) :
    List (List Int) :=
  if directed then
    let M1 := M.set e.1 ((M.getD e.1 []).set c (-1))
    M1.set e.2 ((M1.getD e.2 []).set c 1)
  else
    let M1 := M.set e.1 ((M.getD e.1 []).set c 1)
    M1.set e.2 ((M1.getD e.2 []).set c 1)

/-- The column-filling loop of `get_incidence_matrix` (`enumerate(edges)`). -/
def fillColumns (directed : Bool) : List (List Int) → Nat → List (Nat × Nat) → List (List Int)
  | M, _, [] => M
  | M, c, e :: es => fillColumns directed (applyColumn directed M c e) (c + 1) es

/-- `Graph.get_incidence_matrix`: an `n × m` zero matrix whose columns are
filled from the sorted edge list. -/
def get_incidence_matrix (g : Graph) : List (List Int) :=
  fillColumns g.directed
    (List.replicate g.vertices (List.replicate (incEdges g).length 0)) 0 (incEdges g)

/-- Neighbor-id view of the adjacency list: the traversals iterate
`for v, _ in adj[u]` and use only the neighbor ids. -/
def adjIds (g : Graph) : List (List Nat) :=
  (get_adjacency_list g).map (fun l => l.map Prod.fst)

/-- Neighbor scan of one dequeued BFS vertex: enqueue and mark every not yet
visited neighbor, in list order. -/
def bfsScan (visited : List Bool) (queue : List Nat) (ns : List Nat) :
    List Bool × List Nat :=
  ns.foldl
    (fun st v => if st.1.getD v false then st else (st.1.set v true, st.2 ++ [v]))
    (visited, queue)

/-- The `while queue:` loop of BFS (also the inner loop of
`connected_components`), with a fuel bound on the number of iterations.
Returns the visited array and the dequeue order. -/
def bfsLoop (adj : List (List Nat)) :
    Nat → List Bool → List Nat → List Nat → List Bool × List Nat
  | 0, visited, _, order => (visited, order)
  | _ + 1, visited, [], order => (visited, order)
  | fuel + 1, visited, u :: rest, order =>
    let st := bfsScan visited rest (adj.getD u [])
    bfsLoop adj fuel st.1 st.2 (order ++ [u])

/-- Body of `GraphAlgorithms.bfs` after the start check: visited array of
`n` `False`s, `start` marked and enqueued, loop until the queue is empty.
Fuel `n` is sufficient (each loop iteration dequeues a vertex that was
marked at enqueue time, and at most `n` vertices are ever marked). -/
def bfsFrom (g : Graph) (start : Nat) : List Nat :=
  (bfsLoop (adjIds g) g.vertices
    ((List.replicate g.vertices false).set start true) [start] []).2

/-- `GraphAlgorithms.bfs`: validates `0 <= start < graph.vertices`, raising
`IndexError` otherwise. -/
def bfs (g : Graph) (start : Int) : Except GraphError (List Nat) :=
  if 0 ≤ start ∧ start < (g.vertices : Int) then Except.ok (bfsFrom g start.toNat)
  else Except.error GraphError.indexOutOfRange

/-- The recursive helper `_dfs_recursive` of `GraphAlgorithms.dfs`: mark and
record `u`, then recurse into each not yet visited neighbor in list order.
Fuel bounds the recursion depth; depth `n` is sufficient since every call
targets a vertex that was unvisited at call time. -/
def dfsVisit (adj : List (List Nat)) :
    Nat → List Bool → List Nat → Nat → List Bool × List Nat
  | 0, visited, order, _ => (visited, order)
  | fuel + 1, visited, order, u =>
    (adj.getD u []).foldl
      (fun st v => if st.1.getD v false then st else dfsVisit adj fuel st.1 st.2 v)
      (visited.set u true, order ++ [u])

/-- Body of `GraphAlgorithms.dfs` after the start check. -/
def dfsFrom (g : Graph) (start : Nat) : List Nat :=
  (dfsVisit (adjIds g) g.vertices (List.replicate g.vertices false) [] start).2

/-- `GraphAlgorithms.dfs`: validates `0 <= start < graph.vertices`, raising
`IndexError` otherwise. -/
def dfs (g : Graph) (start : Int) : Except GraphError (List Nat) :=
  if 0 ≤ start ∧ start < (g.vertices : Int) then Except.ok (dfsFrom g start.toNat)
  else Except.error GraphError.indexOutOfRange

/-- One conditional append of `connected_components`' symmetrisation pass:
`if v not in temp_adj[u]: temp_adj[u].append(v)`. -/
def addNeighbor (t : List (List Nat)) (u v : Nat) : List (List Nat) :=
  if v ∈ t.getD u [] then t else t.set u (t.getD u [] ++ [v])

/-- The symmetric, deduplicated, per-vertex sorted temporary adjacency view
`temp_adj` built by `connected_components`. -/
def buildSymAdj (g : Graph) : List (List Nat) :=
  ((List.range g.vertices).foldl
      (fun t u =>
        ((get_adjacency_list g).getD u []).foldl
          (fun t2 p => addNeighbor (addNeighbor t2 u p.1) p.1 u) t)
      (List.replicate g.vertices []))
    |>.map (fun l => l.insertionSort (fun a b => a ≤ b))

/-- One iteration of the component-collection loop of
`connected_components`: skip visited roots, otherwise BFS over the
symmetric view and append the sorted component. -/
def ccStep (t : List (List Nat)) (n : Nat) (st : List Bool × List (List Nat)) (i : Nat) :
    List Bool × List (List Nat) :=
  if st.1.getD i false then st
  else
    let r := bfsLoop t n (st.1.set i true) [i] []
    (r.1, st.2 ++ [r.2.insertionSort (fun a b => a ≤ b)])

/-- `GraphAlgorithms.connected_components`: weakly connected components over
the symmetrised view, each sorted ascending, the list sorted by each
component's first (= smallest) vertex. -/
def connected_components (g : Graph) : List (List Nat) :=
  (((List.range g.vertices).foldl (ccStep (buildSymAdj g) g.vertices)
        (List.replicate g.vertices false, [])).2).insertionSort
    (fun a b => a.headD 0 ≤ b.headD 0)

/-- The per-component statistics record of
`GraphAlgorithms.components_with_stats`. -/
structure ComponentStats where
  vertices : List Nat
  node_count : Nat
  edge_count : Nat
  smallest_vertex : Nat
deriving DecidableEq

/-- Sort order of `components_with_stats`: the key
`(-node_count, -edge_count, smallest_vertex)`. -/
def statLe (a b : ComponentStats) : Prop :=
  b.node_count < a.node_count ∨
    (a.node_count = b.node_count ∧
      (b.edge_count < a.edge_count ∨
        (a.edge_count = b.edge_count ∧ a.smallest_vertex ≤ b.smallest_vertex)))

instance : DecidableRel statLe := fun a b =>
  inferInstanceAs (Decidable (_ ∨ _))

instance : IsTotal ComponentStats statLe :=
  ⟨fun a b => by unfold statLe; omega⟩

instance : IsTrans ComponentStats statLe :=
  ⟨fun a b c => by unfold statLe; omega⟩

/-- The `edge_count` computation of `components_with_stats`: for every
component vertex `u`, count the records `(v, _)` of `u` whose target lies in
the component, restricted to `u < v` in the undirected mode. -/
def edgeCountOf (g : Graph) (comp : List Nat) : Nat :=
  if g.directed then
    comp.foldl
      (fun acc u =>
        acc + ((get_adjacency_list g).getD u []).countP (fun p => decide (p.1 ∈ comp)))
      0
  else
    comp.foldl
      (fun acc u =>
        acc + ((get_adjacency_list g).getD u []).countP
          (fun p => decide (u < p.1) && decide (p.1 ∈ comp)))
      0

/-- `GraphAlgorithms.components_with_stats`: one stats record per component,
sorted by `(-node_count, -edge_count, smallest_vertex)`. -/
def components_with_stats (g : Graph) : List ComponentStats :=
  ((connected_components g).map (fun c =>
      ⟨c, c.length, edgeCountOf g c, c.headD 0⟩)).insertionSort statLe

/-- All stored records as ordered pairs `(u, v)`, listing vertex `u`'s
records in storage order. -/
def recordPairs (g : Graph) : List (Nat × Nat) :=
  (g.adjacency.enum.map (fun ul => ul.2.map (fun p => (ul.1, p.1)))).flatten

/-- Modelled from the spec: "column count equals the number of distinct
logical edges" (§8).  A logical edge is a distinct stored ordered pair for a
directed graph, a distinct stored unordered pair for an undirected graph.
Used only to compare `get_incidence_matrix`'s column count against the
spec's wording. -/
def distinct_logical_edges (g : Graph) : Nat :=
  if g.directed then (recordPairs g).dedup.length
  else ((recordPairs g).map (fun e => (min e.1 e.2, max e.1 e.2))).dedup.length

/-- One traversal step along a stored neighbor list. -/
def adjStep (adj : List (List Nat)) (a b : Nat) : Prop :=
  b ∈ adj.getD a []

/-- Reachability along stored neighbor lists. -/
def Reach (adj : List (List Nat)) : Nat → Nat → Prop :=
  Relation.ReflTransGen (adjStep adj)

/-- One step of the direction-blind adjacency relation: some record joins
`a` and `b` in either direction. -/
def weakStep (g : Graph) (a b : Nat) : Prop :=
  g.hasEdge a b ∨ g.hasEdge b a

/-- Weak reachability: reachability ignoring edge direction, the relation
underlying weakly connected components. -/
def WeakReach (g : Graph) : Nat → Nat → Prop :=
  Relation.ReflTransGen (weakStep g)

/-- Invariant of the component-collection loop of `connected_components`
over the symmetric view `T`: the shared visited array marks exactly the
vertices already placed in a component, components are disjoint, nonempty,
sorted and duplicate-free, every placed vertex has all its `T`-neighbors
visited, and each component is exactly the set of `T`-reachable vertices
from one of its members. -/
def CCInv (T : List (List Nat)) (n : Nat) (st : List Bool × List (List Nat)) : Prop :=
  st.1.length = n ∧
    (∀ v, st.1.getD v false = true ↔ ∃ c ∈ st.2, v ∈ c) ∧
    st.2.flatten.Nodup ∧
    (∀ c ∈ st.2, c ≠ [] ∧ c.Sorted (fun a b => a ≤ b) ∧ c.Nodup) ∧
    (∀ c ∈ st.2, ∀ v ∈ c, ∀ w ∈ T.getD v [], st.1.getD w false = true) ∧
    (∀ c ∈ st.2, ∃ r ∈ c, ∀ v, (v ∈ c ↔ Reach T r v))

/-- Postcondition of one `_dfs_recursive(u)` call relative to the visited
array and preorder list at entry: the visited array only grows, `u` is
visited, the preorder gains exactly the newly visited vertices starting with
`u`, every newly visited vertex is reachable from `u`, and every newly
visited vertex has all its neighbors visited on exit. -/
def DfsPost (adj : List (List Nat)) (visited : List Bool) (order : List Nat) (u : Nat)
    (res : List Bool × List Nat) : Prop :=
  res.1.length = visited.length ∧
    (∀ v, visited.getD v false = true → res.1.getD v false = true) ∧
    res.1.getD u false = true ∧
    (∃ delta, res.2 = order ++ u :: delta ∧ (u :: delta).Nodup ∧
      (∀ v, v ∈ u :: delta ↔
        (res.1.getD v false = true ∧ visited.getD v false = false)) ∧
      visited.count false = res.1.count false + (u :: delta).length) ∧
    (∀ v, res.1.getD v false = true →
      (visited.getD v false = true ∨ Reach adj u v)) ∧
    (∀ v, res.1.getD v false = true → visited.getD v false = false →
      ∀ w ∈ adj.getD v [], res.1.getD w false = true)

/-- Invariant of the neighbor loop inside `_dfs_recursive(u)`, relative to
the visited array and preorder at entry of the call (before `u` was
marked); the closure clause defers `u` itself, whose neighbor loop is still
in progress. -/
def DfsInv (adj : List (List Nat)) (n : Nat) (visited : List Bool) (order : List Nat)
    (u : Nat) (st : List Bool × List Nat) : Prop :=
  st.1.length = n ∧
    st.1.getD u false = true ∧
    (∀ v, visited.getD v false = true → st.1.getD v false = true) ∧
    (∃ delta, st.2 = order ++ u :: delta ∧ (u :: delta).Nodup ∧
      (∀ v, v ∈ u :: delta ↔
        (st.1.getD v false = true ∧ visited.getD v false = false)) ∧
      visited.count false = st.1.count false + (u :: delta).length) ∧
    (∀ v, st.1.getD v false = true → (visited.getD v false = true ∨ Reach adj u v)) ∧
    (∀ v, st.1.getD v false = true → visited.getD v false = false → v ≠ u →
      ∀ w ∈ adj.getD v [], st.1.getD w false = true)

/-- Last-write-wins weight among the records of one vertex that target `v`,
the effect of the assignment loop `matrix[u][v] = weight`. -/
def lastWeight (ns : List (Nat × Int)) (v : Nat) (d : Int) : Int :=
  ns.foldl (fun acc p => if p.1 = v then p.2 else acc) d

/-- Matrix entry access: row `r`, column `j`, defaulting to `0`. -/
def entryAt (M : List (List Int)) (r j : Nat) : Int :=
  (M.getD r []).getD j 0

/-- The value the column-filling loop leaves in row `r` of the column for
edge `e` (the `+1` assignment to the head row is performed last, so it wins
over the `-1` when `e.1 = e.2`). -/
def colEntry (directed : Bool) (e : Nat × Nat) (r : Nat) : Int :=
  if r = e.2 then 1 else if r = e.1 then (if directed then -1 else 1) else 0

/-! ## Basic list facts used throughout -/

lemma getD_set_self {α} {l : List α} {v : Nat} (hv : v < l.length) (b : α) (d : α) :
    (l.set v b).getD v d = b := by
  simp [List.getD_eq_getElem?_getD, List.getElem?_set_self hv]

lemma getD_set_ne {α} {l : List α} {v w : Nat} (h : v ≠ w) (b : α) (d : α) :
    (l.set v b).getD w d = l.getD w d := by
  simp [List.getD_eq_getElem?_getD, List.getElem?_set_ne h]

lemma getD_set_out {α} {l : List α} {v : Nat} (hv : l.length ≤ v) (b : α) (w : Nat) (d : α) :
    (l.set v b).getD w d = l.getD w d := by
  rw [List.set_eq_of_length_le hv]

lemma getD_replicate_false (n v : Nat) :
    (List.replicate n false).getD v false = false := by
  rw [List.getD_eq_getElem?_getD, List.getElem?_replicate]
  split <;> rfl

lemma getD_true_lt_length {l : List Bool} {v : Nat} (h : l.getD v false = true) :
    v < l.length := by
  by_contra hc
  rw [List.getD_eq_getElem?_getD, List.getElem?_eq_none (by omega)] at h
  simp at h

lemma getD_map_fst {l : List (List (Nat × Int))} {u : Nat} :
    ((l.map (fun x => x.map Prod.fst)).getD u []) = (l.getD u []).map Prod.fst := by
  by_cases hu : u < l.length
  · rw [List.getD_eq_getElem _ _ (by simpa using hu), List.getD_eq_getElem _ _ hu]
    simp
  · rw [List.getD_eq_default _ _ (by simpa using Nat.le_of_not_lt hu),
      List.getD_eq_default _ _ (by omega)]
    simp

/-! ## C7: the adjacency-list view -/

/-- C7: `adjacencyList()` returns a fresh structure whose entry for each
vertex is a permutation of that vertex's stored records, sorted ascending by
neighbor id; being a pure value of the embedding, it shares no mutable state
with the graph. -/
theorem c7_adjacency_list_sorted_copy (g : Graph) :
    (get_adjacency_list g).length = g.adjacency.length ∧
      ∀ u : Nat,
        ((get_adjacency_list g).getD u []).Perm (g.adjacency.getD u []) ∧
          ((get_adjacency_list g).getD u []).Pairwise (fun a b => a.1 ≤ b.1) := by
  constructor
  · simp [get_adjacency_list]
  · intro u
    unfold get_adjacency_list
    by_cases hu : u < g.adjacency.length
    · rw [List.getD_eq_getElem _ _ (by simpa using hu), List.getD_eq_getElem _ _ hu,
        List.getElem_map]
      exact ⟨List.perm_insertionSort _ _, List.sorted_insertionSort _ _⟩
    · rw [List.getD_eq_default _ _ (by simpa using Nat.le_of_not_lt hu),
        List.getD_eq_default _ _ (by omega)]
      exact ⟨List.Perm.refl _, List.Pairwise.nil⟩

/-! ## C9: start-vertex validation of the traversals -/

/-- C9: `bfs` and `dfs` succeed exactly when `0 ≤ start < vertexCount` and
raise `IndexOutOfRange` otherwise. -/
theorem c9_traversal_start_check (g : Graph) (hWF : g.WF) (start : Int) :
    ((∃ l, bfs g start = Except.ok l) ↔ (0 ≤ start ∧ start < (g.vertices : Int))) ∧
      (¬(0 ≤ start ∧ start < (g.vertices : Int)) →
        bfs g start = Except.error GraphError.indexOutOfRange) ∧
      ((∃ l, dfs g start = Except.ok l) ↔ (0 ≤ start ∧ start < (g.vertices : Int))) ∧
      (¬(0 ≤ start ∧ start < (g.vertices : Int)) →
        dfs g start = Except.error GraphError.indexOutOfRange) := by
  by_cases hc : 0 ≤ start ∧ start < (g.vertices : Int) <;>
    simp [bfs, dfs, hc]

/-- Witness for C9 at a concrete graph and out-of-range start. -/
theorem c9_traversal_start_check_witness :
    Graph.WF ⟨2, true, false, [[(1, 1)], []]⟩ ∧
      (((∃ l, bfs ⟨2, true, false, [[(1, 1)], []]⟩ 5 = Except.ok l) ↔
            (0 ≤ (5 : Int) ∧ (5 : Int) < ((2 : Nat) : Int))) ∧
        (¬(0 ≤ (5 : Int) ∧ (5 : Int) < ((2 : Nat) : Int)) →
          bfs ⟨2, true, false, [[(1, 1)], []]⟩ 5 = Except.error GraphError.indexOutOfRange) ∧
        ((∃ l, dfs ⟨2, true, false, [[(1, 1)], []]⟩ 5 = Except.ok l) ↔
            (0 ≤ (5 : Int) ∧ (5 : Int) < ((2 : Nat) : Int))) ∧
        (¬(0 ≤ (5 : Int) ∧ (5 : Int) < ((2 : Nat) : Int)) →
          dfs ⟨2, true, false, [[(1, 1)], []]⟩ 5 = Except.error GraphError.indexOutOfRange)) :=
  ⟨by decide, c9_traversal_start_check ⟨2, true, false, [[(1, 1)], []]⟩ (by decide) 5⟩

/-! ## C5: the adjacency matrix -/

lemma foldl_set_length (ns : List (Nat × Int)) (r : List Int) :
    (ns.foldl (fun row p => row.set p.1 p.2) r).length = r.length := by
  induction ns generalizing r with
  | nil => rfl
  | cons p ns ih => rw [List.foldl_cons, ih]; simp

lemma foldl_set_getD (ns : List (Nat × Int)) (r : List Int) (v : Nat) (hv : v < r.length) :
    (ns.foldl (fun row p => row.set p.1 p.2) r).getD v 0 = lastWeight ns v (r.getD v 0) := by
  induction ns generalizing r with
  | nil => rfl
  | cons p ns ih =>
    rw [List.foldl_cons, ih _ (by simpa using hv)]
    unfold lastWeight
    by_cases h : p.1 = v
    · subst h
      rw [List.foldl_cons]
      simp only [if_pos rfl]
      congr 1
      simp [List.getD_eq_getElem?_getD, List.getElem?_set_self hv]
    · rw [List.foldl_cons]
      simp only [if_neg h]
      congr 1
      exact getD_set_ne h _ _

lemma lastWeight_of_not_mem {ns : List (Nat × Int)} {v : Nat} (h : ¬∃ p ∈ ns, p.1 = v)
    (d : Int) : lastWeight ns v d = d := by
  induction ns generalizing d with
  | nil => rfl
  | cons p ns ih =>
    unfold lastWeight
    rw [List.foldl_cons]
    have hp : p.1 ≠ v := fun hc => h ⟨p, List.mem_cons_self .., hc⟩
    rw [if_neg hp]
    exact ih (fun ⟨q, hq, hqv⟩ => h ⟨q, List.mem_cons_of_mem _ hq, hqv⟩) d

lemma lastWeight_mem {ns : List (Nat × Int)} {v : Nat} (h : ∃ p ∈ ns, p.1 = v) (d : Int) :
    ∃ w, (v, w) ∈ ns ∧ lastWeight ns v d = w := by
  induction ns generalizing d with
  | nil => exact absurd h (by simp)
  | cons p ns ih =>
    unfold lastWeight
    rw [List.foldl_cons]
    by_cases hmem : ∃ q ∈ ns, q.1 = v
    · obtain ⟨w, hw, hval⟩ := ih hmem (if p.1 = v then p.2 else d)
      exact ⟨w, List.mem_cons_of_mem _ hw, hval⟩
    · obtain ⟨q, hq, hqv⟩ := h
      rcases List.mem_cons.mp hq with rfl | hq'
      · rw [if_pos hqv]
        refine ⟨q.2, ?_, lastWeight_of_not_mem hmem _⟩
        rw [← hqv]
        exact List.mem_cons_self ..
      · exact absurd ⟨q, hq', hqv⟩ hmem

/-- C5: the adjacency matrix is `n × n`; the entry `[u][v]` equals the
weight of a stored record `u → v` (the last such record) when one exists and
`0` otherwise; when the storage has no self-loop records every diagonal
entry is `0`. -/
theorem c5_adjacency_matrix (g : Graph) (hWF : g.WF) :
    (get_adjacency_matrix g).length = g.vertices ∧
      (∀ row ∈ get_adjacency_matrix g, row.length = g.vertices) ∧
      (∀ u v : Nat, u < g.vertices → v < g.vertices →
        (g.hasEdge u v →
            ∃ w, (v, w) ∈ g.adjacency.getD u [] ∧
              ((get_adjacency_matrix g).getD u []).getD v 0 = w) ∧
          (¬g.hasEdge u v → ((get_adjacency_matrix g).getD u []).getD v 0 = 0)) ∧
      (g.noSelfLoops → ∀ u : Nat, u < g.vertices →
        ((get_adjacency_matrix g).getD u []).getD u 0 = 0) := by
  have hrow : ∀ u : Nat, u < g.vertices →
      (get_adjacency_matrix g).getD u [] =
        (g.adjacency.getD u []).foldl (fun row p => row.set p.1 p.2)
          (List.replicate g.vertices 0) := by
    intro u hu
    unfold get_adjacency_matrix
    rw [List.getD_eq_getElem _ _ (by simpa using hu)]
    simp
  have hentry : ∀ u v : Nat, u < g.vertices → v < g.vertices →
      ((get_adjacency_matrix g).getD u []).getD v 0 =
        lastWeight (g.adjacency.getD u []) v 0 := by
    intro u v hu hv
    rw [hrow u hu, foldl_set_getD _ _ _ (by simpa using hv)]
    congr 1
    simp [List.getD_eq_getElem?_getD, List.getElem?_replicate, hv]
  refine ⟨by simp [get_adjacency_matrix], ?_, ?_, ?_⟩
  · intro row hrowmem
    unfold get_adjacency_matrix at hrowmem
    obtain ⟨u, _, rfl⟩ := List.mem_map.mp hrowmem
    rw [foldl_set_length]
    simp
  · intro u v hu hv
    constructor
    · intro he
      obtain ⟨w, hw, hval⟩ := lastWeight_mem he 0
      exact ⟨w, hw, by rw [hentry u v hu hv]; exact hval⟩
    · intro he
      rw [hentry u v hu hv]
      exact lastWeight_of_not_mem he 0
  · intro hl u hu
    have hlen := hWF.1
    rw [hentry u u hu hu]
    refine lastWeight_of_not_mem ?_ 0
    rintro ⟨p, hp, hpv⟩
    exact hl u (List.mem_range.mpr (by omega)) p hp hpv

/-- Witness for C5 at a concrete weighted directed graph. -/
theorem c5_adjacency_matrix_witness :
    Graph.WF ⟨3, true, true, [[(2, 7), (1, 3)], [], [(0, 2)]]⟩ ∧
      ((get_adjacency_matrix ⟨3, true, true, [[(2, 7), (1, 3)], [], [(0, 2)]]⟩).length = 3 ∧
        (∀ row ∈ get_adjacency_matrix ⟨3, true, true, [[(2, 7), (1, 3)], [], [(0, 2)]]⟩,
          row.length = 3) ∧
        (∀ u v : Nat, u < 3 → v < 3 →
          ((Graph.hasEdge ⟨3, true, true, [[(2, 7), (1, 3)], [], [(0, 2)]]⟩ u v →
              ∃ w, (v, w) ∈ (Graph.adjacency ⟨3, true, true, [[(2, 7), (1, 3)], [], [(0, 2)]]⟩).getD u [] ∧
                ((get_adjacency_matrix ⟨3, true, true, [[(2, 7), (1, 3)], [], [(0, 2)]]⟩).getD u []).getD v 0 = w) ∧
            (¬Graph.hasEdge ⟨3, true, true, [[(2, 7), (1, 3)], [], [(0, 2)]]⟩ u v →
              ((get_adjacency_matrix ⟨3, true, true, [[(2, 7), (1, 3)], [], [(0, 2)]]⟩).getD u []).getD v 0 = 0))) ∧
        (Graph.noSelfLoops ⟨3, true, true, [[(2, 7), (1, 3)], [], [(0, 2)]]⟩ →
          ∀ u : Nat, u < 3 →
            ((get_adjacency_matrix ⟨3, true, true, [[(2, 7), (1, 3)], [], [(0, 2)]]⟩).getD u []).getD u 0 = 0)) :=
  ⟨by decide, c5_adjacency_matrix ⟨3, true, true, [[(2, 7), (1, 3)], [], [(0, 2)]]⟩ (by decide)⟩

/-! ## The incidence matrix: edge collection (C6) -/

lemma collect_inner (g : Graph) (u : Nat) (ns : List (Nat × Int)) :
    ∀ es : List (Nat × Nat),
      ns.foldl
        (fun es2 p =>
          if g.directed then es2 ++ [(u, p.1)]
          else if u < p.1 then es2 ++ [(u, p.1)] else es2) es =
        es ++ (ns.map (fun p => (u, p.1))).filter
          (fun e => g.directed || decide (e.1 < e.2)) := by
  induction ns with
  | nil => intro es; simp
  | cons p ns ih =>
    intro es
    rw [List.foldl_cons, ih, List.map_cons, List.filter_cons]
    by_cases hd : g.directed
    · simp [hd]
    · simp only [Bool.not_eq_true] at hd
      by_cases hlt : u < p.1
      · simp [hd, hlt]
      · simp [hd, hlt]

lemma collectIncEdges_eq (g : Graph) :
    collectIncEdges g =
      ((List.range g.vertices).map
          (fun u => ((g.adjacency.getD u []).map (fun p => (u, p.1))).filter
            (fun e => g.directed || decide (e.1 < e.2)))).flatten := by
  unfold collectIncEdges
  have main : ∀ (us : List Nat) (es : List (Nat × Nat)),
      us.foldl
        (fun es u =>
          (g.adjacency.getD u []).foldl
            (fun es2 p =>
              if g.directed then es2 ++ [(u, p.1)]
              else if u < p.1 then es2 ++ [(u, p.1)] else es2) es) es =
        es ++ (us.map
          (fun u => ((g.adjacency.getD u []).map (fun p => (u, p.1))).filter
            (fun e => g.directed || decide (e.1 < e.2)))).flatten := by
    intro us
    induction us with
    | nil => intro es; simp
    | cons u us ih =>
      intro es
      rw [List.foldl_cons, collect_inner, ih, List.map_cons, List.flatten_cons,
        List.append_assoc]
  rw [main, List.nil_append]

lemma recordPairs_eq_range (g : Graph) :
    recordPairs g =
      ((List.range g.adjacency.length).map
          (fun u => (g.adjacency.getD u []).map (fun p => (u, p.1)))).flatten := by
  unfold recordPairs
  congr 1
  apply List.ext_getElem
  · simp
  · intro i h1 h2
    have hi : i < g.adjacency.length := by simpa using h1
    simp only [List.getElem_map, List.getElem_enum, List.getElem_range]
    rw [List.getD_eq_getElem _ _ hi]

lemma collectIncEdges_records (g : Graph) (hWF : g.WF) :
    collectIncEdges g =
      (recordPairs g).filter (fun e => g.directed || decide (e.1 < e.2)) := by
  rw [collectIncEdges_eq, recordPairs_eq_range, hWF.1, List.filter_flatten,
    List.map_map]
  rfl

lemma collectIncEdges_records_split (g : Graph) (hWF : g.WF) :
    collectIncEdges g =
      if g.directed then recordPairs g
      else (recordPairs g).filter (fun e => decide (e.1 < e.2)) := by
  rw [collectIncEdges_records g hWF]
  by_cases hd : g.directed
  · simp [hd, List.filter_true]
  · simp only [Bool.not_eq_true] at hd
    simp [hd]

lemma mem_recordPairs {g : Graph} {e : Nat × Nat} :
    e ∈ recordPairs g ↔ ∃ w, (e.2, w) ∈ g.adjacency.getD e.1 [] := by
  rw [recordPairs_eq_range]
  simp only [List.mem_flatten, List.mem_map, List.mem_range]
  constructor
  · rintro ⟨l, ⟨u, hu, rfl⟩, hmem⟩
    obtain ⟨p, hp, hpe⟩ := List.mem_map.mp hmem
    refine ⟨p.2, ?_⟩
    have h1 : e.1 = u := by rw [← hpe]
    have h2 : e.2 = p.1 := by rw [← hpe]
    rw [h1, h2]
    exact hp
  · rintro ⟨w, hw⟩
    have hne : g.adjacency.getD e.1 [] ≠ [] := by
      intro hc
      rw [hc] at hw
      exact absurd hw (List.not_mem_nil _)
    have hlt : e.1 < g.adjacency.length := by
      by_contra hc
      exact hne (List.getD_eq_default _ _ (Nat.le_of_not_lt hc))
    exact ⟨(g.adjacency.getD e.1 []).map (fun p => (e.1, p.1)), ⟨e.1, hlt, rfl⟩,
      List.mem_map.mpr ⟨(e.2, w), hw, rfl⟩⟩

lemma mem_recordPairs_bounds {g : Graph} (hWF : g.WF) {e : Nat × Nat}
    (he : e ∈ recordPairs g) : e.1 < g.vertices ∧ e.2 < g.vertices := by
  obtain ⟨w, hw⟩ := mem_recordPairs.mp he
  have hne : g.adjacency.getD e.1 [] ≠ [] := by
    intro hc
    rw [hc] at hw
    exact absurd hw (List.not_mem_nil _)
  have hlt : e.1 < g.adjacency.length := by
    by_contra hc
    exact hne (List.getD_eq_default _ _ (Nat.le_of_not_lt hc))
  have hrow : g.adjacency.getD e.1 [] ∈ g.adjacency := by
    rw [List.getD_eq_getElem _ _ hlt]
    exact List.getElem_mem hlt
  have h2 := hWF.2 _ hrow _ hw
  have hlen := hWF.1
  exact ⟨by omega, h2⟩

/-! ## The incidence matrix: column filling (C3) -/

lemma getD_replicate_self {α} (a : α) (n v : Nat) :
    (List.replicate n a).getD v a = a := by
  rw [List.getD_eq_getElem?_getD, List.getElem?_replicate]
  split <;> rfl

lemma row_set_length (M : List (List Int)) (a c : Nat) (x : Int) (i : Nat) :
    ((M.set a ((M.getD a []).set c x)).getD i []).length = (M.getD i []).length := by
  by_cases hia : i = a
  · subst hia
    by_cases hl : i < M.length
    · rw [getD_set_self hl]
      simp
    · rw [List.set_eq_of_length_le (Nat.le_of_not_lt hl)]
  · rw [getD_set_ne (fun hc => hia hc.symm)]

lemma entry_set_row (M : List (List Int)) (a c : Nat) (x : Int) (r j : Nat)
    (h : ¬(r = a ∧ j = c)) :
    entryAt (M.set a ((M.getD a []).set c x)) r j = entryAt M r j := by
  unfold entryAt
  by_cases hra : r = a
  · subst hra
    have hj : j ≠ c := fun hc => h ⟨rfl, hc⟩
    by_cases hl : r < M.length
    · rw [getD_set_self hl]
      exact getD_set_ne (fun hc => hj hc.symm) _ _
    · rw [List.set_eq_of_length_le (Nat.le_of_not_lt hl)]
  · rw [getD_set_ne (fun hc => hra hc.symm)]

lemma entry_set_row_self (M : List (List Int)) (a c : Nat) (x : Int)
    (ha : a < M.length) (hc : c < (M.getD a []).length) :
    entryAt (M.set a ((M.getD a []).set c x)) a c = x := by
  unfold entryAt
  rw [getD_set_self ha, getD_set_self hc]

lemma applyColumn_eq (d : Bool) (M : List (List Int)) (c : Nat) (e : Nat × Nat) :
    applyColumn d M c e =
      (M.set e.1 ((M.getD e.1 []).set c (if d then -1 else 1))).set e.2
        (((M.set e.1 ((M.getD e.1 []).set c (if d then -1 else 1))).getD e.2 []).set
          c 1) := by
  cases d <;> rfl

lemma applyColumn_length (d : Bool) (M : List (List Int)) (c : Nat) (e : Nat × Nat) :
    (applyColumn d M c e).length = M.length := by
  rw [applyColumn_eq]
  simp

lemma applyColumn_row_length (d : Bool) (M : List (List Int)) (c : Nat) (e : Nat × Nat)
    (i : Nat) :
    ((applyColumn d M c e).getD i []).length = (M.getD i []).length := by
  rw [applyColumn_eq, row_set_length, row_set_length]

lemma applyColumn_entry_other (d : Bool) (M : List (List Int)) (c : Nat) (e : Nat × Nat)
    (r j : Nat) (h : ¬(j = c ∧ (r = e.1 ∨ r = e.2))) :
    entryAt (applyColumn d M c e) r j = entryAt M r j := by
  have h2 : ¬(r = e.2 ∧ j = c) := fun hc => h ⟨hc.2, Or.inr hc.1⟩
  have h1 : ¬(r = e.1 ∧ j = c) := fun hc => h ⟨hc.2, Or.inl hc.1⟩
  rw [applyColumn_eq, entry_set_row _ _ _ _ _ _ h2, entry_set_row _ _ _ _ _ _ h1]

lemma applyColumn_entry_head (d : Bool) (M : List (List Int)) (c : Nat) (e : Nat × Nat)
    (he : e.2 < M.length) (hc : c < (M.getD e.2 []).length) :
    entryAt (applyColumn d M c e) e.2 c = 1 := by
  rw [applyColumn_eq]
  refine entry_set_row_self _ _ _ _ (by simpa using he) ?_
  rw [row_set_length]
  exact hc

lemma applyColumn_entry_tail (d : Bool) (M : List (List Int)) (c : Nat) (e : Nat × Nat)
    (hne : e.1 ≠ e.2) (he : e.1 < M.length) (hc : c < (M.getD e.1 []).length) :
    entryAt (applyColumn d M c e) e.1 c = if d then -1 else 1 := by
  rw [applyColumn_eq, entry_set_row _ _ _ _ _ _ (fun hcc => hne hcc.1)]
  exact entry_set_row_self M e.1 c _ he hc

lemma fillColumns_length (d : Bool) :
    ∀ (es : List (Nat × Nat)) (M : List (List Int)) (c : Nat),
      (fillColumns d M c es).length = M.length := by
  intro es
  induction es with
  | nil => intro M c; rfl
  | cons e es ih =>
    intro M c
    simp only [fillColumns]
    rw [ih, applyColumn_length]

lemma fillColumns_entry (d : Bool) (n m : Nat) :
    ∀ (es : List (Nat × Nat)) (M : List (List Int)) (c : Nat),
      M.length = n →
      (∀ i, i < n → (M.getD i []).length = m) →
      (∀ e ∈ es, e.1 < n ∧ e.2 < n) →
      c + es.length ≤ m →
      (∀ r j, r < n → c ≤ j → j < m → entryAt M r j = 0) →
      ∀ r j, r < n → j < m →
        entryAt (fillColumns d M c es) r j =
          if c ≤ j ∧ j < c + es.length then colEntry d (es.getD (j - c) (0, 0)) r
          else entryAt M r j := by
  intro es
  induction es with
  | nil =>
    intro M c hlen hrows hes hcm hzero r j hr hj
    simp only [fillColumns, List.length_nil]
    rw [if_neg (by omega)]
  | cons e es ih =>
    intro M c hlen hrows hes hcm hzero r j hr hj
    simp only [fillColumns]
    simp only [List.length_cons] at hcm ⊢
    have he := hes e (List.mem_cons_self ..)
    have hM'len : (applyColumn d M c e).length = n := by
      rw [applyColumn_length, hlen]
    have hM'rows : ∀ i, i < n → ((applyColumn d M c e).getD i []).length = m :=
      fun i hi => by rw [applyColumn_row_length]; exact hrows i hi
    have hzero' : ∀ r j, r < n → c + 1 ≤ j → j < m →
        entryAt (applyColumn d M c e) r j = 0 := by
      intro r j hrn hcj hjm
      rw [applyColumn_entry_other _ _ _ _ _ _ (fun hh => by omega)]
      exact hzero r j hrn (by omega) hjm
    rw [ih (applyColumn d M c e) (c + 1) hM'len hM'rows
      (fun e2 he2 => hes e2 (List.mem_cons_of_mem _ he2)) (by omega) hzero' r j hr hj]
    by_cases hca : c + 1 ≤ j ∧ j < c + 1 + es.length
    · rw [if_pos hca, if_pos (by omega)]
      have hjc : j - c = (j - (c + 1)) + 1 := by omega
      rw [hjc, List.getD_cons_succ]
    · rw [if_neg hca]
      by_cases hjc : j = c
      · subst hjc
        rw [if_pos (by omega), Nat.sub_self, List.getD_cons_zero]
        have he1 : e.1 < M.length := by omega
        have he2 : e.2 < M.length := by omega
        have hcm1 : j < m := hj
        by_cases hr2 : r = e.2
        · subst hr2
          rw [applyColumn_entry_head d M j e he2 (by rw [hrows _ (by omega)]; omega)]
          unfold colEntry
          rw [if_pos rfl]
        · by_cases hr1 : r = e.1
          · subst hr1
            rw [applyColumn_entry_tail d M j e hr2 he1 (by rw [hrows _ (by omega)]; omega)]
            unfold colEntry
            rw [if_neg hr2, if_pos rfl]
          · rw [applyColumn_entry_other _ _ _ _ _ _
              (fun hh => by rcases hh.2 with h | h; exact hr1 h; exact hr2 h)]
            rw [hzero r j hr (Nat.le_refl j) hcm1]
            unfold colEntry
            rw [if_neg hr2, if_neg hr1]
      · rw [if_neg (by omega)]
        exact applyColumn_entry_other d M c e r j (fun hh => hjc hh.1)

lemma fillColumns_row_length (d : Bool) :
    ∀ (es : List (Nat × Nat)) (M : List (List Int)) (c i : Nat),
      ((fillColumns d M c es).getD i []).length = (M.getD i []).length := by
  intro es
  induction es with
  | nil => intro M c i; rfl
  | cons e es ih =>
    intro M c i
    simp only [fillColumns]
    rw [ih, applyColumn_row_length]

lemma incidence_shape (g : Graph) :
    (get_incidence_matrix g).length = g.vertices := by
  unfold get_incidence_matrix
  rw [fillColumns_length]
  simp

lemma incidence_row_length (g : Graph) (i : Nat) (hi : i < g.vertices) :
    ((get_incidence_matrix g).getD i []).length = (incEdges g).length := by
  unfold get_incidence_matrix
  rw [fillColumns_row_length, List.getD_eq_getElem _ _ (by simpa using hi)]
  simp

lemma incEdges_bounds (g : Graph) (hWF : g.WF) :
    ∀ e ∈ incEdges g, e.1 < g.vertices ∧ e.2 < g.vertices := by
  intro e he
  rw [incEdges, List.mem_insertionSort, collectIncEdges_records g hWF] at he
  exact mem_recordPairs_bounds hWF (List.mem_of_mem_filter he)

lemma incEdges_ne (g : Graph) (hWF : g.WF) (hns : g.noSelfLoops) :
    ∀ e ∈ incEdges g, e.1 ≠ e.2 := by
  intro e he
  rw [incEdges, List.mem_insertionSort, collectIncEdges_records g hWF] at he
  obtain ⟨w, hw⟩ := mem_recordPairs.mp (List.mem_of_mem_filter he)
  have hne : g.adjacency.getD e.1 [] ≠ [] := by
    intro hcc
    rw [hcc] at hw
    exact absurd hw (List.not_mem_nil _)
  have hlt : e.1 < g.adjacency.length := by
    by_contra hc2
    exact hne (List.getD_eq_default _ _ (Nat.le_of_not_lt hc2))
  have hno := hns e.1 (List.mem_range.mpr hlt) _ hw
  exact Ne.symm hno

lemma entryAt_replicate_zero (n m r j : Nat) :
    entryAt (List.replicate n (List.replicate m (0 : Int))) r j = 0 := by
  unfold entryAt
  by_cases hr : r < n
  · rw [List.getD_eq_getElem (List.replicate n (List.replicate m (0 : Int))) []
      (by simpa using hr)]
    simp only [List.getElem_replicate]
    exact getD_replicate_self 0 m j
  · rw [List.getD_eq_default (List.replicate n (List.replicate m (0 : Int))) []
      (by simpa using Nat.le_of_not_lt hr)]
    rfl

lemma incidence_entry (g : Graph) (hWF : g.WF) (r j : Nat) (hr : r < g.vertices)
    (hj : j < (incEdges g).length) :
    entryAt (get_incidence_matrix g) r j =
      colEntry g.directed ((incEdges g).getD j (0, 0)) r := by
  unfold get_incidence_matrix
  have key := fillColumns_entry g.directed g.vertices (incEdges g).length (incEdges g)
    (List.replicate g.vertices (List.replicate (incEdges g).length 0)) 0
    (by simp)
    (fun i hi => by
      rw [List.getD_eq_getElem _ _ (by simpa using hi)]
      simp)
    (incEdges_bounds g hWF)
    (by omega)
    (fun r2 j2 _ _ _ => entryAt_replicate_zero g.vertices (incEdges g).length r2 j2)
    r j hr hj
  rw [key, if_pos ⟨Nat.zero_le j, by omega⟩, Nat.sub_zero]

lemma incidence_col (g : Graph) (hWF : g.WF) (j : Nat) (hj : j < (incEdges g).length) :
    (get_incidence_matrix g).map (fun row => row.getD j 0) =
      (List.range g.vertices).map
        (fun r => colEntry g.directed ((incEdges g).getD j (0, 0)) r) := by
  apply List.ext_getElem
  · rw [List.length_map, incidence_shape, List.length_map, List.length_range]
  · intro i h1 h2
    simp only [List.getElem_map, List.getElem_range]
    have hi : i < g.vertices := by
      rw [List.length_map, incidence_shape] at h1
      exact h1
    have hkey := incidence_entry g hWF i j hi hj
    unfold entryAt at hkey
    rw [List.getD_eq_getElem (get_incidence_matrix g) []
      (by rw [incidence_shape]; exact hi)] at hkey
    exact hkey

/-! ## Column sign counting (C3) -/

lemma filter_pair_perm {n u v : Nat} (hu : u < n) (hv : v < n) (huv : u ≠ v) :
    ((List.range n).filter (fun r => decide (r = u) || decide (r = v))).Perm [u, v] := by
  apply (List.perm_ext_iff_of_nodup (List.Nodup.filter _ (List.nodup_range n))
    (by simp [huv])).mpr
  intro a
  simp only [List.mem_filter, List.mem_range, Bool.or_eq_true, decide_eq_true_eq,
    List.mem_cons, List.mem_singleton, List.not_mem_nil, or_false]
  constructor
  · exact fun h => h.2
  · rintro (rfl | rfl)
    exacts [⟨hu, Or.inl rfl⟩, ⟨hv, Or.inr rfl⟩]

lemma countP_range_pair {n u v : Nat} (hu : u < n) (hv : v < n) (huv : u ≠ v) :
    (List.range n).countP (fun r => decide (r = u) || decide (r = v)) = 2 := by
  rw [List.countP_eq_length_filter, (filter_pair_perm hu hv huv).length_eq]
  rfl

lemma countP_range_single {n u : Nat} (hu : u < n) :
    (List.range n).countP (fun r => decide (r = u)) = 1 := by
  have h : (List.range n).countP (fun r => decide (r = u)) = (List.range n).count u := by
    rw [List.count_eq_countP]
    exact List.countP_congr (fun x _ => by simp)
  rw [h]
  exact List.count_eq_one_of_mem (List.nodup_range n) (List.mem_range.mpr hu)

lemma three_counts {l : List Int} (h : ∀ x ∈ l, x = 1 ∨ x = -1 ∨ x = 0) :
    l.length = l.count 1 + l.count (-1) + l.count 0 := by
  induction l with
  | nil => simp
  | cons a l ih =>
    have ha := h a (List.mem_cons_self ..)
    have hl := fun x hx => h x (List.mem_cons_of_mem a hx)
    rw [List.length_cons, ih hl]
    rcases ha with rfl | rfl | rfl <;> simp [List.count_cons] <;> omega

lemma col_counts_directed {n : Nat} {e : Nat × Nat} (h1 : e.1 < n) (h2 : e.2 < n)
    (hne : e.1 ≠ e.2) :
    ((List.range n).map (colEntry true e)).count 1 = 1 ∧
      ((List.range n).map (colEntry true e)).count (-1) = 1 ∧
      ((List.range n).map (colEntry true e)).count 0 = n - 2 := by
  have hc1 : ((List.range n).map (colEntry true e)).count 1 = 1 := by
    rw [List.count_eq_countP, List.countP_map]
    rw [List.countP_congr (q := fun r => decide (r = e.2)) ?_]
    · exact countP_range_single h2
    · intro x _
      simp only [Function.comp_apply]
      unfold colEntry
      by_cases hx2 : x = e.2
      · simp [hx2]
      · by_cases hx1 : x = e.1 <;> simp [hx2, hx1, hne]
  have hcm : ((List.range n).map (colEntry true e)).count (-1) = 1 := by
    rw [List.count_eq_countP, List.countP_map]
    rw [List.countP_congr (q := fun r => decide (r = e.1)) ?_]
    · exact countP_range_single h1
    · intro x _
      simp only [Function.comp_apply]
      unfold colEntry
      by_cases hx2 : x = e.2
      · subst hx2
        simp [Ne.symm hne]
      · by_cases hx1 : x = e.1 <;> simp [hx2, hx1, hne]
  refine ⟨hc1, hcm, ?_⟩
  have hall : ∀ x ∈ (List.range n).map (colEntry true e), x = 1 ∨ x = -1 ∨ x = 0 := by
    intro x hx
    obtain ⟨r, _, rfl⟩ := List.mem_map.mp hx
    unfold colEntry
    by_cases hr2 : r = e.2
    · simp [hr2]
    · by_cases hr1 : r = e.1 <;> simp [hr2, hr1, hne]
  have hlen := three_counts hall
  rw [List.length_map, List.length_range, hc1, hcm] at hlen
  omega

lemma col_counts_undirected {n : Nat} {e : Nat × Nat} (h1 : e.1 < n) (h2 : e.2 < n)
    (hne : e.1 ≠ e.2) :
    ((List.range n).map (colEntry false e)).count 1 = 2 ∧
      ((List.range n).map (colEntry false e)).count 0 = n - 2 := by
  have hc1 : ((List.range n).map (colEntry false e)).count 1 = 2 := by
    rw [List.count_eq_countP, List.countP_map]
    rw [List.countP_congr (q := fun r => decide (r = e.2) || decide (r = e.1)) ?_]
    · exact countP_range_pair h2 h1 (Ne.symm hne)
    · intro x _
      simp only [Function.comp_apply]
      unfold colEntry
      by_cases hx2 : x = e.2
      · simp [hx2]
      · by_cases hx1 : x = e.1 <;> simp [hx2, hx1, hne]
  have hcm : ((List.range n).map (colEntry false e)).count (-1) = 0 := by
    rw [List.count_eq_countP, List.countP_map]
    rw [List.countP_congr (q := fun _ => false) ?_]
    · simp
    · intro x _
      simp only [Function.comp_apply]
      unfold colEntry
      by_cases hx2 : x = e.2
      · simp [hx2]
      · by_cases hx1 : x = e.1 <;> simp [hx2, hx1, hne]
  refine ⟨hc1, ?_⟩
  have hall : ∀ x ∈ (List.range n).map (colEntry false e), x = 1 ∨ x = -1 ∨ x = 0 := by
    intro x hx
    obtain ⟨r, _, rfl⟩ := List.mem_map.mp hx
    unfold colEntry
    by_cases hr2 : r = e.2
    · simp [hr2]
    · by_cases hr1 : r = e.1 <;> simp [hr2, hr1, hne]
  have hlen := three_counts hall
  rw [List.length_map, List.length_range, hc1, hcm] at hlen
  omega

/-! ## C6 and C3: the incidence matrix claims -/

/-- C6: the incidence-matrix columns are exactly the stored records (all of
them for a directed graph, the `u < v` ones for an undirected graph),
ordered lexicographically by `(u, v)` in both modes; every row of the matrix
has one entry per column. -/
theorem c6_incidence_column_formation (g : Graph) (hWF : g.WF) :
    (incEdges g).Pairwise lexLe ∧
      (incEdges g).Perm
        (if g.directed then recordPairs g
         else (recordPairs g).filter (fun e => decide (e.1 < e.2))) ∧
      (get_incidence_matrix g).length = g.vertices ∧
      (∀ row ∈ get_incidence_matrix g, row.length = (incEdges g).length) := by
  refine ⟨List.sorted_insertionSort lexLe _, ?_, incidence_shape g, ?_⟩
  · rw [← collectIncEdges_records_split g hWF]
    exact List.perm_insertionSort lexLe _
  · intro row hrow
    obtain ⟨i, hi, rfl⟩ := List.mem_iff_getElem.mp hrow
    have hin : i < g.vertices := by
      rw [incidence_shape] at hi
      exact hi
    rw [← List.getD_eq_getElem (get_incidence_matrix g) [] hi]
    exact incidence_row_length g i hin

/-- Witness for C6 at a concrete directed graph. -/
theorem c6_incidence_column_formation_witness :
    Graph.WF ⟨3, true, false, [[(2, 1), (1, 1)], [(2, 1)], []]⟩ ∧
      ((incEdges ⟨3, true, false, [[(2, 1), (1, 1)], [(2, 1)], []]⟩).Pairwise lexLe ∧
        (incEdges ⟨3, true, false, [[(2, 1), (1, 1)], [(2, 1)], []]⟩).Perm
          (if Graph.directed ⟨3, true, false, [[(2, 1), (1, 1)], [(2, 1)], []]⟩ then
            recordPairs ⟨3, true, false, [[(2, 1), (1, 1)], [(2, 1)], []]⟩
           else (recordPairs ⟨3, true, false, [[(2, 1), (1, 1)], [(2, 1)], []]⟩).filter
             (fun e => decide (e.1 < e.2))) ∧
        (get_incidence_matrix ⟨3, true, false, [[(2, 1), (1, 1)], [(2, 1)], []]⟩).length = 3 ∧
        (∀ row ∈ get_incidence_matrix ⟨3, true, false, [[(2, 1), (1, 1)], [(2, 1)], []]⟩,
          row.length =
            (incEdges ⟨3, true, false, [[(2, 1), (1, 1)], [(2, 1)], []]⟩).length)) :=
  ⟨by decide,
    c6_incidence_column_formation ⟨3, true, false, [[(2, 1), (1, 1)], [(2, 1)], []]⟩
      (by decide)⟩

/-- C3 counterexample: a well-formed directed graph with no self-loops but a
duplicated stored record has two identical incidence columns while it has
only one distinct logical edge. -/
theorem c3_counterexample_duplicate_records :
    Graph.WF ⟨2, true, false, [[(1, 5), (1, 7)], []]⟩ ∧
      Graph.noSelfLoops ⟨2, true, false, [[(1, 5), (1, 7)], []]⟩ ∧
      ((get_incidence_matrix ⟨2, true, false, [[(1, 5), (1, 7)], []]⟩).headD []).length ≠
        distinct_logical_edges ⟨2, true, false, [[(1, 5), (1, 7)], []]⟩ := by
  decide

/-- C3 (amended): for a graph with no self-loop records, every directed
column holds exactly one `-1`, one `+1` and zeros elsewhere, and every
undirected column exactly two `+1`s and zeros elsewhere; the number of
columns equals the number of stored records (directed) respectively the
number of stored records with `u < v` (undirected) — which equals the
number of distinct logical edges only when those records are
duplicate-free. -/
theorem c3_amended_incidence_sign_pattern (g : Graph) (hWF : g.WF)
    (hns : g.noSelfLoops) :
    ((incEdges g).length =
        if g.directed then (recordPairs g).length
        else (recordPairs g).countP (fun e => decide (e.1 < e.2))) ∧
      ∀ j, j < (incEdges g).length →
        ((get_incidence_matrix g).map (fun row => row.getD j 0)).length = g.vertices ∧
          (g.directed = true →
            ((get_incidence_matrix g).map (fun row => row.getD j 0)).count (-1) = 1 ∧
              ((get_incidence_matrix g).map (fun row => row.getD j 0)).count 1 = 1 ∧
              ((get_incidence_matrix g).map (fun row => row.getD j 0)).count 0 =
                g.vertices - 2) ∧
          (g.directed = false →
            ((get_incidence_matrix g).map (fun row => row.getD j 0)).count 1 = 2 ∧
              ((get_incidence_matrix g).map (fun row => row.getD j 0)).count 0 =
                g.vertices - 2) := by
  constructor
  · rw [incEdges, List.length_insertionSort, collectIncEdges_records_split g hWF]
    by_cases hd : g.directed
    · rw [if_pos hd, if_pos hd]
    · rw [if_neg hd, if_neg hd, List.countP_eq_length_filter]
  · intro j hj
    have he : (incEdges g).getD j (0, 0) ∈ incEdges g := by
      rw [List.getD_eq_getElem _ _ hj]
      exact List.getElem_mem hj
    obtain ⟨hb1, hb2⟩ := incEdges_bounds g hWF _ he
    have hne := incEdges_ne g hWF hns _ he
    refine ⟨?_, ?_, ?_⟩
    · rw [incidence_col g hWF j hj]
      simp
    · intro hd
      rw [incidence_col g hWF j hj, hd]
      have h := col_counts_directed hb1 hb2 hne
      exact ⟨h.2.1, h.1, h.2.2⟩
    · intro hd
      rw [incidence_col g hWF j hj, hd]
      exact col_counts_undirected hb1 hb2 hne

/-- Witness for the amended C3 at a concrete directed graph. -/
theorem c3_amended_incidence_sign_pattern_witness :
    (Graph.WF ⟨3, true, false, [[(1, 4)], [(2, 1)], []]⟩ ∧
        Graph.noSelfLoops ⟨3, true, false, [[(1, 4)], [(2, 1)], []]⟩) ∧
      (((incEdges ⟨3, true, false, [[(1, 4)], [(2, 1)], []]⟩).length =
          if Graph.directed ⟨3, true, false, [[(1, 4)], [(2, 1)], []]⟩ then
            (recordPairs ⟨3, true, false, [[(1, 4)], [(2, 1)], []]⟩).length
          else (recordPairs ⟨3, true, false, [[(1, 4)], [(2, 1)], []]⟩).countP
            (fun e => decide (e.1 < e.2))) ∧
        ∀ j, j < (incEdges ⟨3, true, false, [[(1, 4)], [(2, 1)], []]⟩).length →
          ((get_incidence_matrix ⟨3, true, false, [[(1, 4)], [(2, 1)], []]⟩).map
              (fun row => row.getD j 0)).length = 3 ∧
            (Graph.directed ⟨3, true, false, [[(1, 4)], [(2, 1)], []]⟩ = true →
              ((get_incidence_matrix ⟨3, true, false, [[(1, 4)], [(2, 1)], []]⟩).map
                  (fun row => row.getD j 0)).count (-1) = 1 ∧
                ((get_incidence_matrix ⟨3, true, false, [[(1, 4)], [(2, 1)], []]⟩).map
                    (fun row => row.getD j 0)).count 1 = 1 ∧
                ((get_incidence_matrix ⟨3, true, false, [[(1, 4)], [(2, 1)], []]⟩).map
                    (fun row => row.getD j 0)).count 0 = 3 - 2) ∧
            (Graph.directed ⟨3, true, false, [[(1, 4)], [(2, 1)], []]⟩ = false →
              ((get_incidence_matrix ⟨3, true, false, [[(1, 4)], [(2, 1)], []]⟩).map
                  (fun row => row.getD j 0)).count 1 = 2 ∧
                ((get_incidence_matrix ⟨3, true, false, [[(1, 4)], [(2, 1)], []]⟩).map
                    (fun row => row.getD j 0)).count 0 = 3 - 2)) :=
  ⟨⟨by decide, by decide⟩,
    c3_amended_incidence_sign_pattern ⟨3, true, false, [[(1, 4)], [(2, 1)], []]⟩
      (by decide) (by decide)⟩

/-! ## Visited-array bookkeeping for the traversals -/

lemma getD_set_true_iff {l : List Bool} {w v : Nat} (hw : w < l.length) :
    (l.set w true).getD v false = true ↔ (l.getD v false = true ∨ v = w) := by
  by_cases hv : v = w
  · subst hv
    rw [getD_set_self hw]
    simp
  · rw [getD_set_ne (fun hc => hv hc.symm)]
    simp [hv]

lemma vis_set_mono {l : List Bool} {w v : Nat} (h : l.getD v false = true) (x : Bool) :
    x = true → (l.set w x).getD v false = true := by
  intro hx
  subst hx
  by_cases hv : v = w
  · subst hv
    by_cases hw : v < l.length
    · rw [getD_set_self hw]
    · rw [List.set_eq_of_length_le (Nat.le_of_not_lt hw)]
      exact h
  · rw [getD_set_ne (fun hc => hv hc.symm)]
    exact h

lemma count_false_set_true {l : List Bool} :
    ∀ {w : Nat}, w < l.length → l.getD w false = false →
      l.count false = (l.set w true).count false + 1 := by
  induction l with
  | nil => intro w hw; simp at hw
  | cons a l ih =>
    intro w hw hval
    match w with
    | 0 =>
      have ha : a = false := hval
      subst ha
      simp [List.count_cons]
    | w + 1 =>
      have hw' : w < l.length := by simpa using hw
      have hval' : l.getD w false = false := hval
      rw [List.set_cons_succ]
      rw [List.count_cons, List.count_cons, ih hw' hval']
      omega

lemma count_false_pos {l : List Bool} {u : Nat} (hu : u < l.length)
    (h : l.getD u false = false) : 0 < l.count false := by
  induction l generalizing u with
  | nil => simp at hu
  | cons a l ih =>
    match u with
    | 0 =>
      have ha : a = false := h
      subst ha
      simp [List.count_cons]
    | u + 1 =>
      have := ih (u := u) (by simpa using hu) h
      rw [List.count_cons]
      omega

lemma adj_getD_bounds {adj : List (List Nat)} {n : Nat}
    (hadj : ∀ l ∈ adj, ∀ v ∈ l, v < n) (u : Nat) :
    ∀ v ∈ adj.getD u [], v < n := by
  intro v hv
  by_cases hu : u < adj.length
  · rw [List.getD_eq_getElem _ _ hu] at hv
    exact hadj _ (List.getElem_mem hu) _ hv
  · rw [List.getD_eq_default _ _ (Nat.le_of_not_lt hu)] at hv
    exact absurd hv (List.not_mem_nil _)

lemma bfsScan_spec (ns : List Nat) :
    ∀ (visited : List Bool) (queue : List Nat),
      (∀ v ∈ ns, v < visited.length) →
      (bfsScan visited queue ns).1.length = visited.length ∧
        (∀ v, (bfsScan visited queue ns).1.getD v false = true ↔
          (visited.getD v false = true ∨ v ∈ ns)) ∧
        (∃ news, (bfsScan visited queue ns).2 = queue ++ news ∧ news.Nodup ∧
          (∀ v, v ∈ news ↔ (v ∈ ns ∧ visited.getD v false = false)) ∧
          visited.count false = (bfsScan visited queue ns).1.count false + news.length) := by
  induction ns with
  | nil =>
    intro visited queue hlen
    refine ⟨rfl, fun v => by simp [bfsScan], [], by simp [bfsScan], List.nodup_nil,
      fun v => by simp, by simp [bfsScan]⟩
  | cons w ns ih =>
    intro visited queue hlen
    have hwlen : w < visited.length := hlen w (List.mem_cons_self ..)
    by_cases hw : visited.getD w false = true
    · have hstep : bfsScan visited queue (w :: ns) = bfsScan visited queue ns := by
        unfold bfsScan
        rw [List.foldl_cons, if_pos hw]
      rw [hstep]
      obtain ⟨h1, h2, news, hq, hnd, hmem, hcf⟩ :=
        ih visited queue (fun v hv => hlen v (List.mem_cons_of_mem _ hv))
      refine ⟨h1, ?_, news, hq, hnd, ?_, hcf⟩
      · intro v
        rw [h2 v, List.mem_cons]
        constructor
        · rintro (h | h)
          · exact Or.inl h
          · exact Or.inr (Or.inr h)
        · rintro (h | rfl | h)
          · exact Or.inl h
          · exact Or.inl hw
          · exact Or.inr h
      · intro v
        rw [hmem v, List.mem_cons]
        constructor
        · rintro ⟨h1', h2'⟩
          exact ⟨Or.inr h1', h2'⟩
        · rintro ⟨h1' | h1', h2'⟩
          · subst h1'
            rw [hw] at h2'
            exact absurd h2' (by simp)
          · exact ⟨h1', h2'⟩
    · have hwf : visited.getD w false = false := by
        cases hvv : visited.getD w false
        · rfl
        · exact absurd hvv hw
      have hstep : bfsScan visited queue (w :: ns) =
          bfsScan (visited.set w true) (queue ++ [w]) ns := by
        unfold bfsScan
        rw [List.foldl_cons, if_neg (by rw [hwf]; simp)]
      rw [hstep]
      obtain ⟨h1, h2, news, hq, hnd, hmem, hcf⟩ :=
        ih (visited.set w true) (queue ++ [w])
          (fun v hv => by rw [List.length_set]; exact hlen v (List.mem_cons_of_mem _ hv))
      have hset := getD_set_true_iff (v := w) hwlen
      refine ⟨by rw [h1, List.length_set], ?_, w :: news, ?_, ?_, ?_, ?_⟩
      · intro v
        rw [h2 v, getD_set_true_iff hwlen, List.mem_cons]
        constructor
        · rintro ((h | rfl) | h)
          · exact Or.inl h
          · exact Or.inr (Or.inl rfl)
          · exact Or.inr (Or.inr h)
        · rintro (h | rfl | h)
          · exact Or.inl (Or.inl h)
          · exact Or.inl (Or.inr rfl)
          · exact Or.inr h
      · rw [hq, List.append_assoc]
        rfl
      · rw [List.nodup_cons]
        refine ⟨?_, hnd⟩
        intro hwmem
        have := (hmem w).mp hwmem
        rw [getD_set_self hwlen] at this
        exact absurd this.2 (by simp)
      · intro v
        rw [List.mem_cons, hmem v, List.mem_cons]
        constructor
        · rintro (rfl | ⟨h1', h2'⟩)
          · exact ⟨Or.inl rfl, hwf⟩
          · have hvf : visited.getD v false = false := by
              cases hvv : visited.getD v false
              · rfl
              · exact absurd (vis_set_mono hvv true rfl) (by rw [h2']; simp)
            exact ⟨Or.inr h1', hvf⟩
        · rintro ⟨rfl | h1', h2'⟩
          · exact Or.inl rfl
          · by_cases hveq : v = w
            · exact Or.inl hveq
            · refine Or.inr ⟨h1', ?_⟩
              rw [getD_set_ne (fun hc => hveq hc.symm)]
              exact h2'
      · rw [count_false_set_true hwlen hwf, hcf, List.length_cons]
        omega

lemma vis_contra {l : List Bool} {v : Nat} (h1 : l.getD v false = true)
    (h2 : l.getD v false = false) : False := by
  rw [h1] at h2
  exact absurd h2 (by simp)

lemma bfsLoop_spec (adj : List (List Nat)) (n : Nat)
    (hadj : ∀ l ∈ adj, ∀ v ∈ l, v < n) :
    ∀ (fuel : Nat) (visited : List Bool) (queue order : List Nat),
      visited.length = n →
      queue.length + visited.count false ≤ fuel →
      (∀ v ∈ queue, visited.getD v false = true) →
      queue.Nodup →
      (bfsLoop adj fuel visited queue order).1.length = n ∧
        (∀ v, visited.getD v false = true →
          (bfsLoop adj fuel visited queue order).1.getD v false = true) ∧
        (∃ delta, (bfsLoop adj fuel visited queue order).2 = order ++ delta ∧
          delta.Nodup ∧ delta.head? = queue.head? ∧
          (∀ v, v ∈ delta ↔ (v ∈ queue ∨
            ((bfsLoop adj fuel visited queue order).1.getD v false = true ∧
              visited.getD v false = false)))) ∧
        (∀ v, (bfsLoop adj fuel visited queue order).1.getD v false = true →
          (visited.getD v false = true ∨ ∃ q ∈ queue, Reach adj q v)) ∧
        (∀ v, (v ∈ queue ∨
            ((bfsLoop adj fuel visited queue order).1.getD v false = true ∧
              visited.getD v false = false)) →
          ∀ w ∈ adj.getD v [],
            (bfsLoop adj fuel visited queue order).1.getD w false = true) := by
  intro fuel
  induction fuel with
  | zero =>
    intro visited queue order hlen hm hq hnd
    have hqe : queue = [] := List.length_eq_zero.mp (by omega)
    subst hqe
    refine ⟨hlen, fun v h => h, ⟨[], (List.append_nil order).symm, List.nodup_nil, rfl, ?_⟩, ?_, ?_⟩
    · intro v
      constructor
      · intro h
        exact absurd h (List.not_mem_nil _)
      · rintro (h | h)
        · exact absurd h (List.not_mem_nil _)
        · exact (vis_contra (l := visited) h.1 h.2).elim
    · exact fun v h => Or.inl h
    · intro v hv
      rcases hv with hv | hv
      · exact absurd hv (List.not_mem_nil _)
      · exact (vis_contra (l := visited) hv.1 hv.2).elim
  | succ fuel ih =>
    intro visited queue order hlen hm hq hnd
    match queue with
    | [] =>
      refine ⟨hlen, fun v h => h, ⟨[], (List.append_nil order).symm, List.nodup_nil, rfl, ?_⟩, ?_, ?_⟩
      · intro v
        constructor
        · intro h
          exact absurd h (List.not_mem_nil _)
        · rintro (h | h)
          · exact absurd h (List.not_mem_nil _)
          · exact (vis_contra (l := visited) h.1 h.2).elim
      · exact fun v h => Or.inl h
      · intro v hv
        rcases hv with hv | hv
        · exact absurd hv (List.not_mem_nil _)
        · exact (vis_contra (l := visited) hv.1 hv.2).elim
    | u :: rest =>
      have hstep : bfsLoop adj (fuel + 1) visited (u :: rest) order =
          bfsLoop adj fuel (bfsScan visited rest (adj.getD u [])).1
            (bfsScan visited rest (adj.getD u [])).2 (order ++ [u]) := rfl
      have hnsb : ∀ v ∈ adj.getD u [], v < visited.length := by
        rw [hlen]
        exact adj_getD_bounds hadj u
      obtain ⟨S1, S2, news, Sq, Snd, Smem, Scf⟩ :=
        bfsScan_spec (adj.getD u []) visited rest hnsb
      have hu : visited.getD u false = true := hq u (List.mem_cons_self ..)
      have hrestq : ∀ v ∈ rest, visited.getD v false = true :=
        fun v hv => hq v (List.mem_cons_of_mem _ hv)
      have hrestnd : rest.Nodup := hnd.of_cons
      have hunotin : u ∉ rest := (List.nodup_cons.mp hnd).1
      -- hypotheses for the recursive call
      have hlen2 : (bfsScan visited rest (adj.getD u [])).1.length = n := by
        rw [S1, hlen]
      have hm2 : (bfsScan visited rest (adj.getD u [])).2.length +
          (bfsScan visited rest (adj.getD u [])).1.count false ≤ fuel := by
        rw [Sq, List.length_append]
        simp only [List.length_cons] at hm
        omega
      have hq2 : ∀ v ∈ (bfsScan visited rest (adj.getD u [])).2,
          (bfsScan visited rest (adj.getD u [])).1.getD v false = true := by
        intro v hv
        rw [Sq, List.mem_append] at hv
        rcases hv with hv | hv
        · exact (S2 v).mpr (Or.inl (hrestq v hv))
        · exact (S2 v).mpr (Or.inr ((Smem v).mp hv).1)
      have hnd2 : (bfsScan visited rest (adj.getD u [])).2.Nodup := by
        rw [Sq, List.nodup_append]
        refine ⟨hrestnd, Snd, ?_⟩
        intro v hv hv2
        have h1 := hrestq v hv
        have h2 := ((Smem v).mp hv2).2
        rw [h1] at h2
        exact absurd h2 (by simp)
      obtain ⟨L1, L2, ⟨delta2, Leq, Lnd, Lhead, Lmem⟩, Lsound, Lclosure⟩ :=
        ih (bfsScan visited rest (adj.getD u [])).1
          (bfsScan visited rest (adj.getD u [])).2 (order ++ [u]) hlen2 hm2 hq2 hnd2
      rw [hstep]
      have hmono : ∀ v, visited.getD v false = true →
          (bfsLoop adj fuel (bfsScan visited rest (adj.getD u [])).1
            (bfsScan visited rest (adj.getD u [])).2 (order ++ [u])).1.getD v false =
            true :=
        fun v hv => L2 v ((S2 v).mpr (Or.inl hv))
      have hnotvis : ∀ v,
          ¬(bfsScan visited rest (adj.getD u [])).1.getD v false = true →
          visited.getD v false = false := by
        intro v hv
        cases hvv : visited.getD v false
        · rfl
        · exact absurd ((S2 v).mpr (Or.inl hvv)) hv
      have hnews_case : ∀ v,
          (bfsLoop adj fuel (bfsScan visited rest (adj.getD u [])).1
            (bfsScan visited rest (adj.getD u [])).2 (order ++ [u])).1.getD v false =
            true →
          visited.getD v false = false → v ∉ news →
          ¬(bfsScan visited rest (adj.getD u [])).1.getD v false = true := by
        intro v _ hvf hvnews hvis
        rcases (S2 v).mp hvis with h | h
        · rw [hvf] at h
          exact absurd h (by simp)
        · exact hvnews ((Smem v).mpr ⟨h, hvf⟩)
      refine ⟨L1, hmono, ⟨u :: delta2, ?_, ?_, rfl, ?_⟩, ?_, ?_⟩
      · rw [Leq, List.append_assoc]
        rfl
      · rw [List.nodup_cons]
        refine ⟨?_, Lnd⟩
        intro humem
        rcases (Lmem u).mp humem with h | h
        · rw [Sq, List.mem_append] at h
          rcases h with h | h
          · exact hunotin h
          · have h2 := ((Smem u).mp h).2
            rw [hu] at h2
            exact absurd h2 (by simp)
        · exact (vis_contra ((S2 u).mpr (Or.inl hu)) h.2).elim
      · intro v
        rw [List.mem_cons, List.mem_cons]
        constructor
        · rintro (rfl | hv)
          · exact Or.inl (Or.inl rfl)
          · rcases (Lmem v).mp hv with h | h
            · rw [Sq, List.mem_append] at h
              rcases h with h | h
              · exact Or.inl (Or.inr h)
              · obtain ⟨hns, hvf⟩ := (Smem v).mp h
                exact Or.inr ⟨L2 v ((S2 v).mpr (Or.inr hns)), hvf⟩
            · exact Or.inr ⟨h.1, hnotvis v (by rw [h.2]; simp)⟩
        · rintro ((rfl | hv) | ⟨hvf, hvv⟩)
          · exact Or.inl rfl
          · exact Or.inr ((Lmem v).mpr (Or.inl (by rw [Sq, List.mem_append]; exact Or.inl hv)))
          · by_cases hvn : v ∈ news
            · exact Or.inr ((Lmem v).mpr (Or.inl (by rw [Sq, List.mem_append]; exact Or.inr hvn)))
            · exact Or.inr ((Lmem v).mpr (Or.inr ⟨hvf,
                (by
                  cases hss : (bfsScan visited rest (adj.getD u [])).1.getD v false
                  · rfl
                  · exact absurd hss (hnews_case v hvf hvv hvn))⟩))
      · intro v hv
        rcases Lsound v hv with h | ⟨q, hqm, hreach⟩
        · rcases (S2 v).mp h with h2 | h2
          · exact Or.inl h2
          · exact Or.inr ⟨u, List.mem_cons_self .., Relation.ReflTransGen.single h2⟩
        · rw [Sq, List.mem_append] at hqm
          rcases hqm with hqm | hqm
          · exact Or.inr ⟨q, List.mem_cons_of_mem _ hqm, hreach⟩
          · have hns := ((Smem q).mp hqm).1
            exact Or.inr ⟨u, List.mem_cons_self ..,
              Relation.ReflTransGen.trans (Relation.ReflTransGen.single hns) hreach⟩
      · intro v hv w hw
        rcases hv with hv | ⟨hvf, hvv⟩
        · rcases List.mem_cons.mp hv with rfl | hv
          · exact L2 w ((S2 w).mpr (Or.inr hw))
          · exact Lclosure v (Or.inl (by rw [Sq, List.mem_append]; exact Or.inl hv)) w hw
        · by_cases hvn : v ∈ news
          · exact Lclosure v (Or.inl (by rw [Sq, List.mem_append]; exact Or.inr hvn)) w hw
          · refine Lclosure v (Or.inr ⟨hvf, ?_⟩) w hw
            cases hss : (bfsScan visited rest (adj.getD u [])).1.getD v false
            · rfl
            · exact absurd hss (hnews_case v hvf hvv hvn)

lemma adjList_getD_perm (g : Graph) (u : Nat) :
    ((get_adjacency_list g).getD u []).Perm (g.adjacency.getD u []) := by
  unfold get_adjacency_list
  by_cases hu : u < g.adjacency.length
  · rw [List.getD_eq_getElem _ _ (by simpa using hu), List.getD_eq_getElem _ _ hu,
      List.getElem_map]
    exact List.perm_insertionSort _ _
  · rw [List.getD_eq_default _ _ (by simpa using Nat.le_of_not_lt hu),
      List.getD_eq_default _ _ (by omega)]

lemma adjIds_bounds (g : Graph) (hWF : g.WF) :
    ∀ l ∈ adjIds g, ∀ v ∈ l, v < g.vertices := by
  intro l hl v hv
  unfold adjIds at hl
  obtain ⟨l1, hl1, rfl⟩ := List.mem_map.mp hl
  obtain ⟨p, hp, rfl⟩ := List.mem_map.mp hv
  unfold get_adjacency_list at hl1
  obtain ⟨l0, hl0, rfl⟩ := List.mem_map.mp hl1
  have hp0 : p ∈ l0 := (List.mem_insertionSort _).mp hp
  exact hWF.2 l0 hl0 p hp0

lemma mem_adjIds (g : Graph) (u v : Nat) :
    v ∈ (adjIds g).getD u [] ↔ g.hasEdge u v := by
  unfold adjIds
  rw [getD_map_fst, List.mem_map]
  constructor
  · rintro ⟨p, hp, rfl⟩
    exact ⟨p, (adjList_getD_perm g u).mem_iff.mp hp, rfl⟩
  · rintro ⟨p, hp, hpv⟩
    exact ⟨p, (adjList_getD_perm g u).mem_iff.mpr hp, hpv⟩

lemma bfsFrom_spec (g : Graph) (hWF : g.WF) (start : Nat) (hs : start < g.vertices) :
    (bfsFrom g start).Nodup ∧ (bfsFrom g start).head? = some start ∧
      ∀ v, v ∈ bfsFrom g start ↔ Reach (adjIds g) start v := by
  have hadj := adjIds_bounds g hWF
  have hslen : start < (List.replicate g.vertices false).length := by simpa using hs
  have hvism : ((List.replicate g.vertices false).set start true).getD start false = true :=
    getD_set_self hslen _ _
  have hvis0 : ∀ v,
      ((List.replicate g.vertices false).set start true).getD v false = true ↔
        v = start := by
    intro v
    rw [getD_set_true_iff hslen]
    constructor
    · rintro (h | h)
      · rw [getD_replicate_false] at h
        exact absurd h (by simp)
      · exact h
    · exact fun h => Or.inr h
  have hmeas : [start].length +
      ((List.replicate g.vertices false).set start true).count false ≤ g.vertices := by
    have hset := count_false_set_true (l := List.replicate g.vertices false)
      hslen (getD_replicate_false g.vertices start)
    have hr : (List.replicate g.vertices false).count false = g.vertices := by
      simp
    simp only [List.length_cons, List.length_nil]
    omega
  obtain ⟨L1, L2, ⟨delta, Leq, Lnd, Lhead, Lmem⟩, Lsound, Lclosure⟩ :=
    bfsLoop_spec (adjIds g) g.vertices hadj g.vertices
      ((List.replicate g.vertices false).set start true) [start] []
      (by simp) hmeas
      (by
        intro v hv
        rcases List.mem_singleton.mp hv with rfl
        exact hvism)
      (List.nodup_singleton start)
  rw [List.nil_append] at Leq
  have hfromeq : bfsFrom g start =
      (bfsLoop (adjIds g) g.vertices ((List.replicate g.vertices false).set start true)
        [start] []).2 := rfl
  rw [hfromeq, Leq]
  refine ⟨Lnd, by rw [Lhead]; rfl, ?_⟩
  intro v
  constructor
  · intro hv
    rcases (Lmem v).mp hv with h | ⟨h1, h2⟩
    · rcases List.mem_singleton.mp h with rfl
      exact Relation.ReflTransGen.refl
    · rcases Lsound v h1 with h3 | ⟨q, hqm, hreach⟩
      · exact (vis_contra h3 h2).elim
      · rcases List.mem_singleton.mp hqm with rfl
        exact hreach
  · intro hreach
    induction hreach with
    | refl => exact (Lmem start).mpr (Or.inl (List.mem_singleton.mpr rfl))
    | tail hab hbc ihb =>
      rename_i b c
      have hcvis := Lclosure b ((Lmem b).mp ihb) c hbc
      by_cases hcs : c = start
      · subst hcs
        exact (Lmem c).mpr (Or.inl (List.mem_singleton.mpr rfl))
      · refine (Lmem c).mpr (Or.inr ⟨hcvis, ?_⟩)
        cases hvv : ((List.replicate g.vertices false).set start true).getD c false
        · rfl
        · exact absurd ((hvis0 c).mp hvv) hcs

lemma dfsVisit_fold (adj : List (List Nat)) (n fuel : Nat)
    (hadj : ∀ l ∈ adj, ∀ v ∈ l, v < n)
    (ih : ∀ (visited : List Bool) (order : List Nat) (u : Nat),
      visited.length = n → visited.count false ≤ fuel → u < n →
      visited.getD u false = false →
      DfsPost adj visited order u (dfsVisit adj fuel visited order u))
    (visited : List Bool) (order : List Nat) (u : Nat) :
    ∀ (ns : List Nat) (st : List Bool × List Nat),
      (∀ w ∈ ns, w ∈ adj.getD u []) →
      DfsInv adj n visited order u st →
      st.1.count false ≤ fuel →
      DfsInv adj n visited order u
          (ns.foldl (fun st2 v => if st2.1.getD v false then st2
            else dfsVisit adj fuel st2.1 st2.2 v) st) ∧
        (∀ w, st.1.getD w false = true →
          (ns.foldl (fun st2 v => if st2.1.getD v false then st2
            else dfsVisit adj fuel st2.1 st2.2 v) st).1.getD w false = true) ∧
        (∀ w ∈ ns,
          (ns.foldl (fun st2 v => if st2.1.getD v false then st2
            else dfsVisit adj fuel st2.1 st2.2 v) st).1.getD w false = true) ∧
        (ns.foldl (fun st2 v => if st2.1.getD v false then st2
          else dfsVisit adj fuel st2.1 st2.2 v) st).1.count false ≤ st.1.count false := by
  intro ns
  induction ns with
  | nil =>
    intro st hsub hQ hcf
    exact ⟨hQ, fun w h => h, fun w hw => absurd hw (List.not_mem_nil _), Nat.le_refl _⟩
  | cons w ns ihns =>
    intro st hsub hQ hcf
    rw [List.foldl_cons]
    by_cases hw : st.1.getD w false = true
    · rw [if_pos hw]
      obtain ⟨Q2, mono2, proc2, cf2⟩ :=
        ihns st (fun x hx => hsub x (List.mem_cons_of_mem _ hx)) hQ hcf
      refine ⟨Q2, mono2, ?_, cf2⟩
      intro x hx
      rcases List.mem_cons.mp hx with rfl | hx
      · exact mono2 x hw
      · exact proc2 x hx
    · rw [if_neg hw]
      have hwf : st.1.getD w false = false := by
        cases hvv : st.1.getD w false
        · rfl
        · exact absurd hvv hw
      have hwn : w < n := adj_getD_bounds hadj u w (hsub w (List.mem_cons_self ..))
      obtain ⟨Q1, Q2, Q3, ⟨d0, Qq, Qnd, Qmem, Qcf⟩, Qsound, Qclos⟩ := hQ
      obtain ⟨P1, P2, P3, ⟨d1, Pq, Pnd, Pmem, Pcf⟩, Psound, Pclos⟩ :=
        ih st.1 st.2 w Q1 hcf hwn hwf
      have hnotvisited : ∀ v, (dfsVisit adj fuel st.1 st.2 w).1.getD v false = true →
          st.1.getD v false = false → visited.getD v false = false := by
        intro v _ hvf
        cases hvv : visited.getD v false
        · rfl
        · exact (vis_contra (Q3 v hvv) hvf).elim
      have hQ1 : DfsInv adj n visited order u (dfsVisit adj fuel st.1 st.2 w) := by
        refine ⟨P1.trans Q1, P2 u Q2, fun v hv => P2 v (Q3 v hv),
          ⟨d0 ++ w :: d1, ?_, ?_, ?_, ?_⟩, ?_, ?_⟩
        · rw [Pq, Qq, List.append_assoc]
          rfl
        · rw [List.nodup_cons, List.nodup_append]
          have hd0sub : ∀ v ∈ d0, st.1.getD v false = true ∧ visited.getD v false = false :=
            fun v hv => (Qmem v).mp (List.mem_cons_of_mem _ hv)
          have hwd1sub : ∀ v ∈ w :: d1,
              (dfsVisit adj fuel st.1 st.2 w).1.getD v false = true ∧
                st.1.getD v false = false :=
            fun v hv => (Pmem v).mp hv
          refine ⟨?_, (List.nodup_cons.mp Qnd).2, Pnd, ?_⟩
          · intro humem
            rw [List.mem_append] at humem
            rcases humem with h | h
            · exact (List.nodup_cons.mp Qnd).1 h
            · exact (vis_contra Q2 ((hwd1sub u h).2)).elim
          · intro v hv hv2
            exact (vis_contra (hd0sub v hv).1 ((hwd1sub v hv2).2)).elim
        · intro v
          constructor
          · intro hv
            rcases List.mem_cons.mp hv with rfl | hv
            · exact ⟨P2 v Q2, ((Qmem v).mp (List.mem_cons_self ..)).2⟩
            · rw [List.mem_append] at hv
              rcases hv with hv | hv
              · obtain ⟨h1, h2⟩ := (Qmem v).mp (List.mem_cons_of_mem _ hv)
                exact ⟨P2 v h1, h2⟩
              · obtain ⟨h1, h2⟩ := (Pmem v).mp hv
                exact ⟨h1, hnotvisited v h1 h2⟩
          · rintro ⟨h1, h2⟩
            by_cases hstv : st.1.getD v false = true
            · rcases List.mem_cons.mp ((Qmem v).mpr ⟨hstv, h2⟩) with rfl | hv
              · exact List.mem_cons_self ..
              · exact List.mem_cons_of_mem _ (List.mem_append.mpr (Or.inl hv))
            · have hstf : st.1.getD v false = false := by
                cases hvv : st.1.getD v false
                · rfl
                · exact absurd hvv hstv
              exact List.mem_cons_of_mem _
                (List.mem_append.mpr (Or.inr ((Pmem v).mpr ⟨h1, hstf⟩)))
        · rw [Qcf, Pcf]
          simp only [List.length_cons, List.length_append]
          omega
        · intro v hv
          rcases Psound v hv with h | h
          · exact Qsound v h
          · exact Or.inr (Relation.ReflTransGen.trans
              (Relation.ReflTransGen.single (hsub w (List.mem_cons_self ..))) h)
        · intro v hv hvf hvu x hx
          by_cases hstv : st.1.getD v false = true
          · exact P2 x (Qclos v hstv hvf hvu x hx)
          · have hstf : st.1.getD v false = false := by
              cases hvv : st.1.getD v false
              · rfl
              · exact absurd hvv hstv
            exact Pclos v hv hstf x hx
      have hcf1 : (dfsVisit adj fuel st.1 st.2 w).1.count false ≤ st.1.count false := by
        omega
      obtain ⟨Q2x, mono2, proc2, cf2⟩ :=
        ihns (dfsVisit adj fuel st.1 st.2 w)
          (fun x hx => hsub x (List.mem_cons_of_mem _ hx)) hQ1 (Nat.le_trans hcf1 hcf)
      refine ⟨Q2x, fun x hx => mono2 x (P2 x hx), ?_, Nat.le_trans cf2 hcf1⟩
      intro x hx
      rcases List.mem_cons.mp hx with rfl | hx
      · exact mono2 x P3
      · exact proc2 x hx

lemma dfsVisit_spec (adj : List (List Nat)) (n : Nat)
    (hadj : ∀ l ∈ adj, ∀ v ∈ l, v < n) :
    ∀ (fuel : Nat) (visited : List Bool) (order : List Nat) (u : Nat),
      visited.length = n → visited.count false ≤ fuel → u < n →
      visited.getD u false = false →
      DfsPost adj visited order u (dfsVisit adj fuel visited order u) := by
  intro fuel
  induction fuel with
  | zero =>
    intro visited order u hlen hcf hu hvu
    have := count_false_pos (l := visited) (by omega) hvu
    omega
  | succ fuel ihf =>
    intro visited order u hlen hcf hu hvu
    have hstep : dfsVisit adj (fuel + 1) visited order u =
        (adj.getD u []).foldl
          (fun st v => if st.1.getD v false then st
            else dfsVisit adj fuel st.1 st.2 v)
          (visited.set u true, order ++ [u]) := rfl
    have hulen : u < visited.length := by omega
    have hbase : DfsInv adj n visited order u (visited.set u true, order ++ [u]) := by
      refine ⟨by simp [hlen], getD_set_self hulen _ _, fun v hv => vis_set_mono hv true rfl,
        ⟨[], rfl, List.nodup_singleton u, ?_, ?_⟩, ?_, ?_⟩
      · intro v
        constructor
        · intro hv
          rcases List.mem_singleton.mp hv with rfl
          exact ⟨getD_set_self hulen _ _, hvu⟩
        · rintro ⟨h1, h2⟩
          rcases (getD_set_true_iff hulen).mp h1 with h | rfl
          · exact (vis_contra h h2).elim
          · exact List.mem_singleton.mpr rfl
      · show List.count false visited = List.count false (visited.set u true) + 1
        exact count_false_set_true hulen hvu
      · intro v hv
        rcases (getD_set_true_iff hulen).mp hv with h | rfl
        · exact Or.inl h
        · exact Or.inr Relation.ReflTransGen.refl
      · intro v hv hvf hvne x hx
        rcases (getD_set_true_iff hulen).mp hv with h | rfl
        · exact (vis_contra h hvf).elim
        · exact absurd rfl hvne
    have hcf0 : (visited.set u true).count false ≤ fuel := by
      have := count_false_set_true hulen hvu
      omega
    obtain ⟨Q, mono, processed, hcfle⟩ :=
      dfsVisit_fold adj n fuel hadj ihf visited order u (adj.getD u [])
        (visited.set u true, order ++ [u]) (fun w hw => hw) hbase hcf0
    rw [hstep]
    obtain ⟨Q1, Q2, Q3, ⟨delta, Qq, Qnd, Qmem, Qcf⟩, Qsound, Qclos⟩ := Q
    refine ⟨by rw [Q1, hlen], Q3, Q2, ⟨delta, Qq, Qnd, Qmem, Qcf⟩, Qsound, ?_⟩
    intro v hv hvf w hw
    by_cases hvu2 : v = u
    · subst hvu2
      exact processed w hw
    · exact Qclos v hv hvf hvu2 w hw

lemma dfsFrom_spec (g : Graph) (hWF : g.WF) (start : Nat) (hs : start < g.vertices) :
    (dfsFrom g start).Nodup ∧ (dfsFrom g start).head? = some start ∧
      ∀ v, v ∈ dfsFrom g start ↔ Reach (adjIds g) start v := by
  have hadj := adjIds_bounds g hWF
  obtain ⟨P1, P2, P3, ⟨delta, Pq, Pnd, Pmem, Pcf⟩, Psound, Pclos⟩ :=
    dfsVisit_spec (adjIds g) g.vertices hadj g.vertices (List.replicate g.vertices false)
      [] start (by simp) (by simp) hs (getD_replicate_false g.vertices start)
  have hfromeq : dfsFrom g start =
      (dfsVisit (adjIds g) g.vertices (List.replicate g.vertices false) [] start).2 := rfl
  rw [hfromeq, Pq, List.nil_append]
  refine ⟨Pnd, rfl, ?_⟩
  intro v
  constructor
  · intro hv
    obtain ⟨h1, _⟩ := (Pmem v).mp hv
    rcases Psound v h1 with h | h
    · rw [getD_replicate_false] at h
      exact absurd h (by simp)
    · exact h
  · intro hreach
    induction hreach with
    | refl => exact (Pmem start).mpr ⟨P3, getD_replicate_false g.vertices start⟩
    | tail hab hbc ihb =>
      rename_i b c
      obtain ⟨hb1, hb2⟩ := (Pmem b).mp ihb
      have hcvis := Pclos b hb1 hb2 c hbc
      exact (Pmem c).mpr ⟨hcvis, getD_replicate_false g.vertices c⟩

/-! ## C10: agreement of the two traversals -/

/-- C10: for every well-formed graph and valid start vertex, `bfs` and `dfs`
both return successfully, both sequences begin with `start`, and the two
sequences contain exactly the same set of vertices. -/
theorem c10_bfs_dfs_first_and_same_set (g : Graph) (hWF : g.WF) (start : Nat)
    (hs : start < g.vertices) :
    bfs g (start : Int) = Except.ok (bfsFrom g start) ∧
      dfs g (start : Int) = Except.ok (dfsFrom g start) ∧
      (bfsFrom g start).head? = some start ∧
      (dfsFrom g start).head? = some start ∧
      ∀ v, v ∈ bfsFrom g start ↔ v ∈ dfsFrom g start := by
  have hcond : 0 ≤ (start : Int) ∧ (start : Int) < (g.vertices : Int) :=
    ⟨Int.natCast_nonneg start, by exact_mod_cast hs⟩
  obtain ⟨_, hb2, hb3⟩ := bfsFrom_spec g hWF start hs
  obtain ⟨_, hd2, hd3⟩ := dfsFrom_spec g hWF start hs
  refine ⟨?_, ?_, hb2, hd2, fun v => by rw [hb3 v, hd3 v]⟩
  · unfold bfs
    rw [if_pos hcond, Int.toNat_natCast]
  · unfold dfs
    rw [if_pos hcond, Int.toNat_natCast]

/-- Witness for C10 at the spec's 5-vertex example graph. -/
theorem c10_bfs_dfs_first_and_same_set_witness :
    (Graph.WF ⟨5, false, false, [[(1, 1)], [(0, 1), (2, 1)], [(1, 1)], [(4, 1)], [(3, 1)]]⟩ ∧
        (0 : Nat) < 5) ∧
      (bfs ⟨5, false, false, [[(1, 1)], [(0, 1), (2, 1)], [(1, 1)], [(4, 1)], [(3, 1)]]⟩
          ((0 : Nat) : Int) =
          Except.ok (bfsFrom
            ⟨5, false, false, [[(1, 1)], [(0, 1), (2, 1)], [(1, 1)], [(4, 1)], [(3, 1)]]⟩ 0) ∧
        dfs ⟨5, false, false, [[(1, 1)], [(0, 1), (2, 1)], [(1, 1)], [(4, 1)], [(3, 1)]]⟩
          ((0 : Nat) : Int) =
          Except.ok (dfsFrom
            ⟨5, false, false, [[(1, 1)], [(0, 1), (2, 1)], [(1, 1)], [(4, 1)], [(3, 1)]]⟩ 0) ∧
        (bfsFrom ⟨5, false, false, [[(1, 1)], [(0, 1), (2, 1)], [(1, 1)], [(4, 1)], [(3, 1)]]⟩
            0).head? = some 0 ∧
        (dfsFrom ⟨5, false, false, [[(1, 1)], [(0, 1), (2, 1)], [(1, 1)], [(4, 1)], [(3, 1)]]⟩
            0).head? = some 0 ∧
        ∀ v, v ∈ bfsFrom
            ⟨5, false, false, [[(1, 1)], [(0, 1), (2, 1)], [(1, 1)], [(4, 1)], [(3, 1)]]⟩ 0 ↔
          v ∈ dfsFrom
            ⟨5, false, false, [[(1, 1)], [(0, 1), (2, 1)], [(1, 1)], [(4, 1)], [(3, 1)]]⟩ 0) :=
  ⟨⟨by decide, by decide⟩,
    c10_bfs_dfs_first_and_same_set
      ⟨5, false, false, [[(1, 1)], [(0, 1), (2, 1)], [(1, 1)], [(4, 1)], [(3, 1)]]⟩
      (by decide) 0 (by decide)⟩

/-! ## The symmetrised adjacency view of connected_components -/

lemma addNeighbor_length (t : List (List Nat)) (u v : Nat) :
    (addNeighbor t u v).length = t.length := by
  unfold addNeighbor
  split
  · rfl
  · simp

lemma mem_addNeighbor {t : List (List Nat)} {u : Nat} (hu : u < t.length) (v : Nat) :
    ∀ x w, w ∈ (addNeighbor t u v).getD x [] ↔
      (w ∈ t.getD x [] ∨ (x = u ∧ w = v)) := by
  intro x w
  unfold addNeighbor
  by_cases hmem : v ∈ t.getD u []
  · rw [if_pos hmem]
    constructor
    · exact fun h => Or.inl h
    · rintro (h | ⟨rfl, rfl⟩)
      · exact h
      · exact hmem
  · rw [if_neg hmem]
    by_cases hx : x = u
    · subst hx
      rw [getD_set_self hu]
      rw [List.mem_append, List.mem_singleton]
      constructor
      · rintro (h | rfl)
        · exact Or.inl h
        · exact Or.inr ⟨rfl, rfl⟩
      · rintro (h | ⟨-, rfl⟩)
        · exact Or.inl h
        · exact Or.inr rfl
    · rw [getD_set_ne (fun hc => hx hc.symm)]
      constructor
      · exact fun h => Or.inl h
      · rintro (h | ⟨rfl, -⟩)
        · exact h
        · exact absurd rfl hx

lemma adjList_bounds (g : Graph) (hWF : g.WF) :
    ∀ u, ∀ p ∈ (get_adjacency_list g).getD u [], p.1 < g.vertices := by
  intro u p hp
  have hp2 := (adjList_getD_perm g u).mem_iff.mp hp
  by_cases hu : u < g.adjacency.length
  · rw [List.getD_eq_getElem _ _ hu] at hp2
    exact hWF.2 _ (List.getElem_mem hu) _ hp2
  · rw [List.getD_eq_default _ _ (Nat.le_of_not_lt hu)] at hp2
    exact absurd hp2 (List.not_mem_nil _)

lemma symPair_mem {t : List (List Nat)} {u v : Nat} (hu : u < t.length)
    (hv : v < t.length) :
    ∀ x w, w ∈ (addNeighbor (addNeighbor t u v) v u).getD x [] ↔
      (w ∈ t.getD x [] ∨ (x = u ∧ w = v) ∨ (x = v ∧ w = u)) := by
  intro x w
  rw [mem_addNeighbor (by rw [addNeighbor_length]; exact hv) u,
    mem_addNeighbor hu v]
  tauto

lemma symInnerFold_mem (g : Graph) (n : Nat) (u : Nat) (hu : u < n) :
    ∀ (ns : List (Nat × Int)) (t : List (List Nat)),
      t.length = n → (∀ p ∈ ns, p.1 < n) →
      (ns.foldl (fun t2 p => addNeighbor (addNeighbor t2 u p.1) p.1 u) t).length = n ∧
        (∀ x w,
          w ∈ (ns.foldl (fun t2 p => addNeighbor (addNeighbor t2 u p.1) p.1 u) t).getD x [] ↔
            (w ∈ t.getD x [] ∨ ∃ p ∈ ns, (x = u ∧ w = p.1) ∨ (x = p.1 ∧ w = u))) := by
  intro ns
  induction ns with
  | nil =>
    intro t hlen hb
    refine ⟨hlen, fun x w => ?_⟩
    simp
  | cons p ns ih =>
    intro t hlen hb
    rw [List.foldl_cons]
    have hlen2 : (addNeighbor (addNeighbor t u p.1) p.1 u).length = n := by
      rw [addNeighbor_length, addNeighbor_length, hlen]
    obtain ⟨L1, L2⟩ := ih (addNeighbor (addNeighbor t u p.1) p.1 u) hlen2
      (fun q hq => hb q (List.mem_cons_of_mem _ hq))
    refine ⟨L1, fun x w => ?_⟩
    rw [L2 x w, symPair_mem (by omega) (by rw [hlen]; exact hb p (List.mem_cons_self ..))]
    constructor
    · rintro ((h | h | h) | ⟨q, hq, hcase⟩)
      · exact Or.inl h
      · exact Or.inr ⟨p, List.mem_cons_self .., Or.inl h⟩
      · exact Or.inr ⟨p, List.mem_cons_self .., Or.inr h⟩
      · exact Or.inr ⟨q, List.mem_cons_of_mem _ hq, hcase⟩
    · rintro (h | ⟨q, hq, hcase⟩)
      · exact Or.inl (Or.inl h)
      · rcases List.mem_cons.mp hq with rfl | hq
        · rcases hcase with h | h
          · exact Or.inl (Or.inr (Or.inl h))
          · exact Or.inl (Or.inr (Or.inr h))
        · exact Or.inr ⟨q, hq, hcase⟩

lemma symOuterFold_mem (g : Graph) (n : Nat) (hWF : g.WF) (hn : n = g.vertices) :
    ∀ (us : List Nat) (t : List (List Nat)),
      t.length = n → (∀ u ∈ us, u < n) →
      ((us.foldl
          (fun t u =>
            ((get_adjacency_list g).getD u []).foldl
              (fun t2 p => addNeighbor (addNeighbor t2 u p.1) p.1 u) t)
          t).length = n) ∧
        (∀ x w,
          w ∈ (us.foldl
              (fun t u =>
                ((get_adjacency_list g).getD u []).foldl
                  (fun t2 p => addNeighbor (addNeighbor t2 u p.1) p.1 u) t)
              t).getD x [] ↔
            (w ∈ t.getD x [] ∨ ∃ u ∈ us, ∃ p ∈ (get_adjacency_list g).getD u [],
              (x = u ∧ w = p.1) ∨ (x = p.1 ∧ w = u))) := by
  intro us
  induction us with
  | nil =>
    intro t hlen hb
    refine ⟨hlen, fun x w => ?_⟩
    simp
  | cons u us ih =>
    intro t hlen hb
    rw [List.foldl_cons]
    have hu : u < n := hb u (List.mem_cons_self ..)
    have hrec : ∀ p ∈ (get_adjacency_list g).getD u [], p.1 < n := by
      intro p hp
      rw [hn]
      exact adjList_bounds g hWF u p hp
    obtain ⟨I1, I2⟩ := symInnerFold_mem g n u hu ((get_adjacency_list g).getD u []) t hlen hrec
    obtain ⟨L1, L2⟩ := ih _ I1 (fun x hx => hb x (List.mem_cons_of_mem _ hx))
    refine ⟨L1, fun x w => ?_⟩
    rw [L2 x w, I2 x w]
    constructor
    · rintro ((h | ⟨p, hp, hcase⟩) | ⟨u2, hu2, hrest⟩)
      · exact Or.inl h
      · exact Or.inr ⟨u, List.mem_cons_self .., p, hp, hcase⟩
      · exact Or.inr ⟨u2, List.mem_cons_of_mem _ hu2, hrest⟩
    · rintro (h | ⟨u2, hu2, hrest⟩)
      · exact Or.inl (Or.inl h)
      · rcases List.mem_cons.mp hu2 with rfl | hu2
        · exact Or.inl (Or.inr hrest)
        · exact Or.inr ⟨u2, hu2, hrest⟩

lemma mem_buildSymAdj (g : Graph) (hWF : g.WF) :
    ∀ x w, w ∈ (buildSymAdj g).getD x [] ↔ weakStep g x w := by
  intro x w
  have hlen0 : (List.replicate g.vertices ([] : List Nat)).length = g.vertices := by simp
  obtain ⟨L1, L2⟩ := symOuterFold_mem g g.vertices hWF rfl (List.range g.vertices)
    (List.replicate g.vertices []) hlen0 (fun u hu => List.mem_range.mp hu)
  have hsortmem : ∀ (T : List (List Nat)) (x w : Nat),
      w ∈ (T.map (fun l => l.insertionSort (fun a b => a ≤ b))).getD x [] ↔
        w ∈ T.getD x [] := by
    intro T x w
    by_cases hx : x < T.length
    · rw [List.getD_eq_getElem _ _ (by simpa using hx), List.getD_eq_getElem _ _ hx,
        List.getElem_map]
      exact List.mem_insertionSort _
    · rw [List.getD_eq_default _ _ (by simpa using Nat.le_of_not_lt hx),
        List.getD_eq_default _ _ (by omega)]
  unfold buildSymAdj
  rw [hsortmem, L2]
  have hbase : w ∈ (List.replicate g.vertices ([] : List Nat)).getD x [] ↔ False := by
    rw [getD_replicate_self]
    simp
  rw [hbase]
  constructor
  · rintro (h | ⟨u, hu, p, hp, hcase⟩)
    · exact h.elim
    · rcases hcase with ⟨hx, hw⟩ | ⟨hx, hw⟩
      · refine Or.inl ⟨p, ?_, hw.symm⟩
        rw [hx]
        exact (adjList_getD_perm g u).mem_iff.mp hp
      · refine Or.inr ⟨p, ?_, hx.symm⟩
        rw [hw]
        exact (adjList_getD_perm g u).mem_iff.mp hp
  · have hvx := hWF.1
    rintro (⟨p, hp, rfl⟩ | ⟨p, hp, rfl⟩)
    · have hne : g.adjacency.getD x [] ≠ [] := List.ne_nil_of_mem hp
      have hx : x < g.adjacency.length := by
        by_contra hc
        exact hne (List.getD_eq_default _ _ (Nat.le_of_not_lt hc))
      refine Or.inr ⟨x, List.mem_range.mpr (by omega), p,
        (adjList_getD_perm g x).mem_iff.mpr hp, Or.inl ⟨rfl, rfl⟩⟩
    · have hne : g.adjacency.getD w [] ≠ [] := List.ne_nil_of_mem hp
      have hw : w < g.adjacency.length := by
        by_contra hc
        exact hne (List.getD_eq_default _ _ (Nat.le_of_not_lt hc))
      refine Or.inr ⟨w, List.mem_range.mpr (by omega), p,
        (adjList_getD_perm g w).mem_iff.mpr hp, Or.inr ⟨rfl, rfl⟩⟩

/-! ## The component-collection loop of connected_components -/

lemma ccStep_preserve (T : List (List Nat)) (n : Nat)
    (hT : ∀ l ∈ T, ∀ v ∈ l, v < n)
    (hsymT : ∀ a b, b ∈ T.getD a [] ↔ a ∈ T.getD b []) :
    ∀ (st : List Bool × List (List Nat)) (i : Nat), i < n → CCInv T n st →
      CCInv T n (ccStep T n st i) ∧
        (∀ v, st.1.getD v false = true → (ccStep T n st i).1.getD v false = true) ∧
        (ccStep T n st i).1.getD i false = true := by
  intro st i hi hInv
  obtain ⟨I1, I2, I3, I4, I5, I6⟩ := hInv
  by_cases hvis : st.1.getD i false = true
  · unfold ccStep
    rw [if_pos hvis]
    exact ⟨⟨I1, I2, I3, I4, I5, I6⟩, fun v h => h, hvis⟩
  · have hvf : st.1.getD i false = false := by
      cases hv2 : st.1.getD i false
      · rfl
      · exact absurd hv2 hvis
    have hstep : ccStep T n st i =
        ((bfsLoop T n (st.1.set i true) [i] []).1,
          st.2 ++ [(bfsLoop T n (st.1.set i true) [i] []).2.insertionSort
            (fun a b => a ≤ b)]) := by
      unfold ccStep
      rw [if_neg hvis]
    have hil : i < st.1.length := by omega
    have hlen2 : (st.1.set i true).length = n := by simp [I1]
    have hmeas : [i].length + (st.1.set i true).count false ≤ n := by
      have h1 := count_false_set_true hil hvf
      have h2 := List.count_le_length false st.1
      simp only [List.length_cons, List.length_nil]
      omega
    obtain ⟨L1, L2, ⟨delta, Leq, Lnd, Lhead, Lmem⟩, Lsound, Lclosure⟩ :=
      bfsLoop_spec T n hT n (st.1.set i true) [i] [] hlen2 hmeas
        (by
          intro v hv
          rcases List.mem_singleton.mp hv with rfl
          exact getD_set_self hil _ _)
        (List.nodup_singleton i)
    rw [List.nil_append] at Leq
    rw [← Leq] at Lmem Lnd
    have hvis_iff : ∀ v, (bfsLoop T n (st.1.set i true) [i] []).1.getD v false = true ↔
        (st.1.getD v false = true ∨ v ∈ (bfsLoop T n (st.1.set i true) [i] []).2) := by
      intro v
      constructor
      · intro hv
        by_cases hsv : st.1.getD v false = true
        · exact Or.inl hsv
        · refine Or.inr ((Lmem v).mpr ?_)
          by_cases hvi : v = i
          · exact Or.inl (by rw [hvi]; exact List.mem_singleton.mpr rfl)
          · refine Or.inr ⟨hv, ?_⟩
            rw [getD_set_ne (fun hc => hvi hc.symm)]
            cases hsv2 : st.1.getD v false
            · rfl
            · exact absurd hsv2 hsv
      · rintro (hv | hv)
        · exact L2 v (vis_set_mono hv true rfl)
        · rcases (Lmem v).mp hv with h | h
          · rcases List.mem_singleton.mp h with rfl
            exact L2 v (getD_set_self hil _ _)
          · exact h.1
    have hdelta_new : ∀ v ∈ (bfsLoop T n (st.1.set i true) [i] []).2,
        st.1.getD v false = false := by
      intro v hv
      rcases (Lmem v).mp hv with h | h
      · rcases List.mem_singleton.mp h with rfl
        exact hvf
      · cases hsv : st.1.getD v false
        · rfl
        · exact (vis_contra (vis_set_mono hsv true rfl) h.2).elim
    have hi_delta : i ∈ (bfsLoop T n (st.1.set i true) [i] []).2 :=
      (Lmem i).mpr (Or.inl (List.mem_singleton.mpr rfl))
    have hreach_delta : ∀ v, v ∈ (bfsLoop T n (st.1.set i true) [i] []).2 ↔
        Reach T i v := by
      intro v
      constructor
      · intro hv
        rcases (Lmem v).mp hv with h | h
        · rcases List.mem_singleton.mp h with rfl
          exact Relation.ReflTransGen.refl
        · rcases Lsound v h.1 with h2 | ⟨q, hqm, hr⟩
          · exact (vis_contra h2 h.2).elim
          · rcases List.mem_singleton.mp hqm with rfl
            exact hr
      · intro hr
        induction hr with
        | refl => exact hi_delta
        | tail hab hbc ihb =>
          rename_i b c
          have hcvis := Lclosure b ((Lmem b).mp ihb) c hbc
          refine (Lmem c).mpr ?_
          by_cases hci : c = i
          · exact Or.inl (by rw [hci]; exact List.mem_singleton.mpr rfl)
          · refine Or.inr ⟨hcvis, ?_⟩
            rw [getD_set_ne (fun hc => hci hc.symm)]
            cases hsv : st.1.getD c false
            · rfl
            · exfalso
              obtain ⟨c0, hc0, hcmem⟩ := (I2 c).mp hsv
              have hbvis := I5 c0 hc0 c hcmem b ((hsymT b c).mp hbc)
              exact vis_contra hbvis (hdelta_new b ihb)
    have hsorted_mem : ∀ v,
        v ∈ ((bfsLoop T n (st.1.set i true) [i] []).2).insertionSort (fun a b => a ≤ b) ↔
          v ∈ (bfsLoop T n (st.1.set i true) [i] []).2 :=
      fun v => List.mem_insertionSort _
    rw [hstep]
    refine ⟨⟨L1, ?_, ?_, ?_, ?_, ?_⟩, ?_, ?_⟩
    · intro v
      show (bfsLoop T n (st.1.set i true) [i] []).1.getD v false = true ↔ _
      rw [hvis_iff v, I2 v]
      constructor
      · rintro (⟨c, hc, hvc⟩ | hv)
        · exact ⟨c, List.mem_append.mpr (Or.inl hc), hvc⟩
        · exact ⟨_, List.mem_append.mpr (Or.inr (List.mem_singleton.mpr rfl)),
            (hsorted_mem v).mpr hv⟩
      · rintro ⟨c, hc, hvc⟩
        rcases List.mem_append.mp hc with hc | hc
        · exact Or.inl ⟨c, hc, hvc⟩
        · rcases List.mem_singleton.mp hc with rfl
          exact Or.inr ((hsorted_mem v).mp hvc)
    · show (st.2 ++ [((bfsLoop T n (st.1.set i true) [i] []).2).insertionSort
        (fun a b => a ≤ b)]).flatten.Nodup
      simp only [List.flatten_append, List.flatten_cons, List.flatten_nil, List.append_nil]
      rw [List.nodup_append]
      refine ⟨I3, ((List.perm_insertionSort _ _).nodup_iff).mpr Lnd, ?_⟩
      intro v hv hv2
      obtain ⟨c, hc, hvc⟩ := List.mem_flatten.mp hv
      have hvis2 := (I2 v).mpr ⟨c, hc, hvc⟩
      exact vis_contra hvis2 (hdelta_new v ((hsorted_mem v).mp hv2))
    · intro c hc
      rcases List.mem_append.mp hc with hc | hc
      · exact I4 c hc
      · rcases List.mem_singleton.mp hc with rfl
        exact ⟨List.ne_nil_of_mem ((hsorted_mem i).mpr hi_delta),
          List.sorted_insertionSort _ _,
          ((List.perm_insertionSort _ _).nodup_iff).mpr Lnd⟩
    · intro c hc v hvc w hw
      rcases List.mem_append.mp hc with hc | hc
      · exact (hvis_iff w).mpr (Or.inl (I5 c hc v hvc w hw))
      · rcases List.mem_singleton.mp hc with rfl
        exact Lclosure v ((Lmem v).mp ((hsorted_mem v).mp hvc)) w hw
    · intro c hc
      rcases List.mem_append.mp hc with hc | hc
      · exact I6 c hc
      · rcases List.mem_singleton.mp hc with rfl
        exact ⟨i, (hsorted_mem i).mpr hi_delta,
          fun v => by rw [hsorted_mem v, hreach_delta v]⟩
    · exact fun v hv => (hvis_iff v).mpr (Or.inl hv)
    · exact (hvis_iff i).mpr (Or.inr hi_delta)

lemma ccFold_spec (T : List (List Nat)) (n : Nat)
    (hT : ∀ l ∈ T, ∀ v ∈ l, v < n)
    (hsymT : ∀ a b, b ∈ T.getD a [] ↔ a ∈ T.getD b []) :
    ∀ (us : List Nat) (st : List Bool × List (List Nat)),
      (∀ u ∈ us, u < n) → CCInv T n st →
      CCInv T n (us.foldl (ccStep T n) st) ∧
        (∀ v, st.1.getD v false = true →
          (us.foldl (ccStep T n) st).1.getD v false = true) ∧
        (∀ u ∈ us, (us.foldl (ccStep T n) st).1.getD u false = true) := by
  intro us
  induction us with
  | nil =>
    intro st hb hInv
    exact ⟨hInv, fun v h => h, fun u hu => absurd hu (List.not_mem_nil _)⟩
  | cons u us ih =>
    intro st hb hInv
    rw [List.foldl_cons]
    obtain ⟨J1, J2, J3⟩ :=
      ccStep_preserve T n hT hsymT st u (hb u (List.mem_cons_self ..)) hInv
    obtain ⟨K1, K2, K3⟩ :=
      ih (ccStep T n st u) (fun x hx => hb x (List.mem_cons_of_mem _ hx)) J1
    refine ⟨K1, fun v hv => K2 v (J2 v hv), ?_⟩
    intro x hx
    rcases List.mem_cons.mp hx with rfl | hx
    · exact K2 x J3
    · exact K3 x hx

lemma hasEdge_bounds (g : Graph) (hWF : g.WF) {u v : Nat} (h : g.hasEdge u v) :
    u < g.vertices ∧ v < g.vertices := by
  obtain ⟨p, hp, hpv⟩ := h
  have hne : g.adjacency.getD u [] ≠ [] := List.ne_nil_of_mem hp
  have hu : u < g.adjacency.length := by
    by_contra hc
    exact hne (List.getD_eq_default _ _ (Nat.le_of_not_lt hc))
  have hrow : g.adjacency.getD u [] ∈ g.adjacency := by
    rw [List.getD_eq_getElem _ _ hu]
    exact List.getElem_mem hu
  have hv := hWF.2 _ hrow _ hp
  have hlen := hWF.1
  exact ⟨by omega, by omega⟩

lemma buildSymAdj_symm (g : Graph) (hWF : g.WF) :
    ∀ a b, b ∈ (buildSymAdj g).getD a [] ↔ a ∈ (buildSymAdj g).getD b [] := by
  intro a b
  rw [mem_buildSymAdj g hWF, mem_buildSymAdj g hWF]
  unfold weakStep
  exact or_comm

lemma buildSymAdj_bounds (g : Graph) (hWF : g.WF) :
    ∀ l ∈ buildSymAdj g, ∀ v ∈ l, v < g.vertices := by
  intro l hl v hv
  obtain ⟨x, hx, hxe⟩ := List.mem_iff_getElem.mp hl
  have hmem : v ∈ (buildSymAdj g).getD x [] := by
    rw [List.getD_eq_getElem _ _ hx, hxe]
    exact hv
  rcases (mem_buildSymAdj g hWF x v).mp hmem with h | h
  · exact (hasEdge_bounds g hWF h).2
  · exact (hasEdge_bounds g hWF h).1

instance : IsTotal (List Nat) (fun a b => a.headD 0 ≤ b.headD 0) :=
  ⟨fun a b => Nat.le_total _ _⟩

instance : IsTrans (List Nat) (fun a b => a.headD 0 ≤ b.headD 0) :=
  ⟨fun _ _ _ hab hbc => Nat.le_trans hab hbc⟩

lemma headD_mem {l : List Nat} (h : l ≠ []) (d : Nat) : l.headD d ∈ l := by
  cases l with
  | nil => exact absurd rfl h
  | cons a t => exact List.mem_cons_self ..

lemma cc_core (g : Graph) (hWF : g.WF) :
    CCInv (buildSymAdj g) g.vertices
        ((List.range g.vertices).foldl (ccStep (buildSymAdj g) g.vertices)
          (List.replicate g.vertices false, [])) ∧
      ∀ u, u < g.vertices →
        ((List.range g.vertices).foldl (ccStep (buildSymAdj g) g.vertices)
          (List.replicate g.vertices false, [])).1.getD u false = true := by
  have hbase : CCInv (buildSymAdj g) g.vertices
      (List.replicate g.vertices false, ([] : List (List Nat))) := by
    refine ⟨by simp, ?_, by simp, ?_, ?_, ?_⟩
    · intro v
      show (List.replicate g.vertices false).getD v false = true ↔
        ∃ c ∈ ([] : List (List Nat)), v ∈ c
      rw [getD_replicate_false]
      simp
    · intro c hc
      exact absurd hc (List.not_mem_nil _)
    · intro c hc
      exact absurd hc (List.not_mem_nil _)
    · intro c hc
      exact absurd hc (List.not_mem_nil _)
  obtain ⟨K1, K2, K3⟩ := ccFold_spec (buildSymAdj g) g.vertices
    (buildSymAdj_bounds g hWF) (buildSymAdj_symm g hWF)
    (List.range g.vertices) (List.replicate g.vertices false, [])
    (fun u hu => List.mem_range.mp hu) hbase
  exact ⟨K1, fun u hu => K3 u (List.mem_range.mpr hu)⟩

lemma cc_facts (g : Graph) (hWF : g.WF) :
    (∀ v, v < g.vertices → ∃ c ∈ connected_components g, v ∈ c) ∧
      (connected_components g).flatten.Nodup ∧
      (∀ c ∈ connected_components g, c ≠ [] ∧ c.Sorted (fun a b => a ≤ b) ∧ c.Nodup) ∧
      (∀ c ∈ connected_components g, ∃ r ∈ c, ∀ v, v ∈ c ↔ Reach (buildSymAdj g) r v) ∧
      (∀ c ∈ connected_components g, ∀ v ∈ c, v < g.vertices) ∧
      (connected_components g).Pairwise (fun a b => a.headD 0 ≤ b.headD 0) ∧
      (connected_components g).Pairwise (fun a b => a.Disjoint b) := by
  obtain ⟨⟨I1, I2, I3, I4, I5, I6⟩, htot⟩ := cc_core g hWF
  have hperm : (connected_components g).Perm
      ((List.range g.vertices).foldl (ccStep (buildSymAdj g) g.vertices)
        (List.replicate g.vertices false, [])).2 :=
    List.perm_insertionSort _ _
  have hmemc : ∀ c, c ∈ connected_components g ↔
      c ∈ ((List.range g.vertices).foldl (ccStep (buildSymAdj g) g.vertices)
        (List.replicate g.vertices false, [])).2 :=
    fun c => hperm.mem_iff
  have hflat : (connected_components g).flatten.Nodup :=
    (hperm.flatten.nodup_iff).mpr I3
  refine ⟨?_, hflat, ?_, ?_, ?_, List.sorted_insertionSort _ _, (List.nodup_flatten.mp hflat).2⟩
  · intro v hv
    obtain ⟨c, hc, hvc⟩ := (I2 v).mp (htot v hv)
    exact ⟨c, (hmemc c).mpr hc, hvc⟩
  · intro c hc
    exact I4 c ((hmemc c).mp hc)
  · intro c hc
    exact I6 c ((hmemc c).mp hc)
  · intro c hc v hvc
    have hvis := (I2 v).mpr ⟨c, (hmemc c).mp hc, hvc⟩
    have := getD_true_lt_length hvis
    omega

lemma reach_sym_iff_weakReach (g : Graph) (hWF : g.WF) (a b : Nat) :
    Reach (buildSymAdj g) a b ↔ WeakReach g a b := by
  constructor <;> intro h
  · exact Relation.ReflTransGen.mono (fun x y hxy => (mem_buildSymAdj g hWF x y).mp hxy) h
  · exact Relation.ReflTransGen.mono (fun x y hxy => (mem_buildSymAdj g hWF x y).mpr hxy) h

lemma reach_sym_symmetric (g : Graph) (hWF : g.WF) :
    Symmetric (Reach (buildSymAdj g)) :=
  Relation.ReflTransGen.symmetric (fun x y hxy => (buildSymAdj_symm g hWF x y).mp hxy)

lemma cc_member_char (g : Graph) (hWF : g.WF) :
    ∀ c ∈ connected_components g, ∀ r ∈ c, ∀ v,
      (v ∈ c ↔ Reach (buildSymAdj g) r v) := by
  obtain ⟨_, _, _, hchar, _, _, _⟩ := cc_facts g hWF
  intro c hc r hr v
  obtain ⟨r0, hr0, h0⟩ := hchar c hc
  have hr0r : Reach (buildSymAdj g) r0 r := (h0 r).mp hr
  constructor
  · intro hv
    exact Relation.ReflTransGen.trans (reach_sym_symmetric g hWF hr0r) ((h0 v).mp hv)
  · intro hv
    exact (h0 v).mpr (Relation.ReflTransGen.trans hr0r hv)

/-! ## C2: the connected-components claims -/

/-- C2: `connectedComponents` returns the weakly connected components —
every vertex lies in exactly one component, a component containing `r` is
exactly the set of vertices weakly reachable from `r` — with each
component's vertex list sorted strictly ascending, the component list
sorted strictly ascending by smallest (= first) vertex id, and the first
element of each component its minimum. -/
theorem c2_connected_components_weak (g : Graph) (hWF : g.WF) :
    (∀ v, v < g.vertices → ∃ c ∈ connected_components g, v ∈ c) ∧
      (connected_components g).flatten.Nodup ∧
      (∀ c ∈ connected_components g, List.Sorted (fun a b => a < b) c) ∧
      (∀ c ∈ connected_components g, ∀ r ∈ c, ∀ v, (v ∈ c ↔ WeakReach g r v)) ∧
      List.Sorted (fun a b => a < b)
        ((connected_components g).map (fun c => c.headD 0)) ∧
      (∀ c ∈ connected_components g, ∀ v ∈ c, c.headD 0 ≤ v) := by
  obtain ⟨htot, hflat, hwf2, hchar, hbound, hheadle, hdisj⟩ := cc_facts g hWF
  refine ⟨htot, hflat, ?_, ?_, ?_, ?_⟩
  · intro c hc
    obtain ⟨-, hsorted, hnd⟩ := hwf2 c hc
    exact (hsorted.and hnd).imp (fun hab => Nat.lt_of_le_of_ne hab.1 hab.2)
  · intro c hc r hr v
    rw [cc_member_char g hWF c hc r hr v]
    exact reach_sym_iff_weakReach g hWF r v
  · show List.Pairwise (fun a b => a < b)
      ((connected_components g).map (fun c => c.headD 0))
    rw [List.pairwise_map]
    refine List.Pairwise.imp_of_mem ?_ (hheadle.and hdisj)
    intro a b ha hb hab
    refine Nat.lt_of_le_of_ne hab.1 ?_
    intro heq
    have hae := (hwf2 a ha).1
    have hbe := (hwf2 b hb).1
    exact hab.2 (headD_mem hae 0) (heq ▸ headD_mem hbe 0)
  · intro c hc v hvc
    obtain ⟨hne, hsorted, -⟩ := hwf2 c hc
    cases c with
    | nil => exact absurd rfl hne
    | cons h t =>
      rcases List.mem_cons.mp hvc with rfl | hvt
      · exact Nat.le_refl v
      · exact List.rel_of_sorted_cons hsorted v hvt

/-- Witness for C2 at the spec's 5-vertex example graph. -/
theorem c2_connected_components_weak_witness :
    Graph.WF ⟨5, false, false, [[(1, 1)], [(0, 1), (2, 1)], [(1, 1)], [(4, 1)], [(3, 1)]]⟩ ∧
      ((∀ v, v < 5 → ∃ c ∈ connected_components
          ⟨5, false, false, [[(1, 1)], [(0, 1), (2, 1)], [(1, 1)], [(4, 1)], [(3, 1)]]⟩,
          v ∈ c) ∧
        (connected_components
          ⟨5, false, false, [[(1, 1)], [(0, 1), (2, 1)], [(1, 1)], [(4, 1)], [(3, 1)]]⟩).flatten.Nodup ∧
        (∀ c ∈ connected_components
            ⟨5, false, false, [[(1, 1)], [(0, 1), (2, 1)], [(1, 1)], [(4, 1)], [(3, 1)]]⟩,
          List.Sorted (fun a b => a < b) c) ∧
        (∀ c ∈ connected_components
            ⟨5, false, false, [[(1, 1)], [(0, 1), (2, 1)], [(1, 1)], [(4, 1)], [(3, 1)]]⟩,
          ∀ r ∈ c, ∀ v, (v ∈ c ↔ WeakReach
            ⟨5, false, false, [[(1, 1)], [(0, 1), (2, 1)], [(1, 1)], [(4, 1)], [(3, 1)]]⟩ r v)) ∧
        List.Sorted (fun a b => a < b)
          ((connected_components
            ⟨5, false, false, [[(1, 1)], [(0, 1), (2, 1)], [(1, 1)], [(4, 1)], [(3, 1)]]⟩).map
            (fun c => c.headD 0)) ∧
        (∀ c ∈ connected_components
            ⟨5, false, false, [[(1, 1)], [(0, 1), (2, 1)], [(1, 1)], [(4, 1)], [(3, 1)]]⟩,
          ∀ v ∈ c, c.headD 0 ≤ v)) :=
  ⟨by decide,
    c2_connected_components_weak
      ⟨5, false, false, [[(1, 1)], [(0, 1), (2, 1)], [(1, 1)], [(4, 1)], [(3, 1)]]⟩
      (by decide)⟩

/-! ## C1: traversal set versus component -/

lemma hasEdge_symm_all (g : Graph) (hWF : g.WF) (hsym : g.symmetricStorage) :
    ∀ a b, g.hasEdge a b ↔ g.hasEdge b a := by
  intro a b
  by_cases ha : a < g.vertices
  · by_cases hb : b < g.vertices
    · exact hsym a (List.mem_range.mpr ha) b (List.mem_range.mpr hb)
    · constructor
      · intro h
        exact absurd (hasEdge_bounds g hWF h).2 hb
      · intro h
        exact absurd (hasEdge_bounds g hWF h).1 hb
  · constructor
    · intro h
      exact absurd (hasEdge_bounds g hWF h).1 ha
    · intro h
      exact absurd (hasEdge_bounds g hWF h).2 ha

lemma reach_ids_iff_sym (g : Graph) (hWF : g.WF) (hsym : g.symmetricStorage) (a b : Nat) :
    Reach (adjIds g) a b ↔ Reach (buildSymAdj g) a b := by
  constructor <;> intro h
  · refine Relation.ReflTransGen.mono ?_ h
    intro x y hxy
    exact (mem_buildSymAdj g hWF x y).mpr (Or.inl ((mem_adjIds g x y).mp hxy))
  · refine Relation.ReflTransGen.mono ?_ h
    intro x y hxy
    rcases (mem_buildSymAdj g hWF x y).mp hxy with h2 | h2
    · exact (mem_adjIds g x y).mpr h2
    · exact (mem_adjIds g x y).mpr ((hasEdge_symm_all g hWF hsym x y).mpr h2)

/-- C1 counterexample: on a well-formed directed graph with the single edge
`0 → 1`, starting the traversals at `1`, `bfs` and `dfs` visit only `{1}`
while the (weakly) connected component containing `1` is `{0, 1}`. -/
theorem c1_counterexample_directed :
    Graph.WF ⟨2, true, false, [[(1, 1)], []]⟩ ∧ (1 : Nat) < 2 ∧
      connected_components ⟨2, true, false, [[(1, 1)], []]⟩ = [[0, 1]] ∧
      bfsFrom ⟨2, true, false, [[(1, 1)], []]⟩ 1 = [1] ∧
      dfsFrom ⟨2, true, false, [[(1, 1)], []]⟩ 1 = [1] ∧
      (0 : Nat) ∈ [0, 1] ∧
      (0 : Nat) ∉ bfsFrom ⟨2, true, false, [[(1, 1)], []]⟩ 1 ∧
      (0 : Nat) ∉ dfsFrom ⟨2, true, false, [[(1, 1)], []]⟩ 1 := by
  decide

/-- C1 (amended): restricted to graphs whose adjacency storage is symmetric
as a relation — in particular undirected graphs whose `addEdge` stores both
directions — the vertex set returned by `bfs` (and by `dfs`) equals the
component of `connectedComponents` containing `start`, and each vertex
appears in each traversal exactly once.  (For directed graphs the
traversals follow edge directions while the components are weak, so the
claim fails as stated.) -/
theorem c1_amended_traversal_set_eq_component (g : Graph) (hWF : g.WF)
    (hsym : g.symmetricStorage) (start : Nat) (hs : start < g.vertices) :
    (∃ c ∈ connected_components g, start ∈ c) ∧
      ∀ c ∈ connected_components g, start ∈ c →
        ((∀ v, v ∈ bfsFrom g start ↔ v ∈ c) ∧ (bfsFrom g start).Nodup ∧
          (∀ v, v ∈ dfsFrom g start ↔ v ∈ c) ∧ (dfsFrom g start).Nodup) := by
  obtain ⟨htot, -, -, -, -, -, -⟩ := cc_facts g hWF
  obtain ⟨hbnd, -, hbm⟩ := bfsFrom_spec g hWF start hs
  obtain ⟨hdnd, -, hdm⟩ := dfsFrom_spec g hWF start hs
  refine ⟨htot start hs, ?_⟩
  intro c hc hstart
  have hcc := cc_member_char g hWF c hc start hstart
  refine ⟨?_, hbnd, ?_, hdnd⟩
  · intro v
    rw [hbm v, hcc v]
    exact reach_ids_iff_sym g hWF hsym start v
  · intro v
    rw [hdm v, hcc v]
    exact reach_ids_iff_sym g hWF hsym start v

/-- Witness for the amended C1 at the spec's undirected 5-vertex example. -/
theorem c1_amended_traversal_set_eq_component_witness :
    (Graph.WF ⟨5, false, false, [[(1, 1)], [(0, 1), (2, 1)], [(1, 1)], [(4, 1)], [(3, 1)]]⟩ ∧
        Graph.symmetricStorage
          ⟨5, false, false, [[(1, 1)], [(0, 1), (2, 1)], [(1, 1)], [(4, 1)], [(3, 1)]]⟩ ∧
        (0 : Nat) < 5) ∧
      ((∃ c ∈ connected_components
          ⟨5, false, false, [[(1, 1)], [(0, 1), (2, 1)], [(1, 1)], [(4, 1)], [(3, 1)]]⟩,
          (0 : Nat) ∈ c) ∧
        ∀ c ∈ connected_components
            ⟨5, false, false, [[(1, 1)], [(0, 1), (2, 1)], [(1, 1)], [(4, 1)], [(3, 1)]]⟩,
          (0 : Nat) ∈ c →
            ((∀ v, v ∈ bfsFrom
                ⟨5, false, false, [[(1, 1)], [(0, 1), (2, 1)], [(1, 1)], [(4, 1)], [(3, 1)]]⟩ 0 ↔
                v ∈ c) ∧
              (bfsFrom
                ⟨5, false, false, [[(1, 1)], [(0, 1), (2, 1)], [(1, 1)], [(4, 1)], [(3, 1)]]⟩
                0).Nodup ∧
              (∀ v, v ∈ dfsFrom
                ⟨5, false, false, [[(1, 1)], [(0, 1), (2, 1)], [(1, 1)], [(4, 1)], [(3, 1)]]⟩ 0 ↔
                v ∈ c) ∧
              (dfsFrom
                ⟨5, false, false, [[(1, 1)], [(0, 1), (2, 1)], [(1, 1)], [(4, 1)], [(3, 1)]]⟩
                0).Nodup)) :=
  ⟨⟨by decide, by decide, by decide⟩,
    c1_amended_traversal_set_eq_component
      ⟨5, false, false, [[(1, 1)], [(0, 1), (2, 1)], [(1, 1)], [(4, 1)], [(3, 1)]]⟩
      (by decide) (by decide) 0 (by decide)⟩

/-! ## C8: the node-count sum -/

/-- C8: the `node_count` fields of `componentsWithStats` sum to the number
of vertices — the components cover every vertex exactly once. -/
theorem c8_node_count_sum (g : Graph) (hWF : g.WF) :
    ((components_with_stats g).map (fun s => s.node_count)).sum = g.vertices := by
  obtain ⟨htot, hflat, -, -, hbound, -, -⟩ := cc_facts g hWF
  have hperm : (components_with_stats g).Perm
      ((connected_components g).map (fun c =>
        (⟨c, c.length, edgeCountOf g c, c.headD 0⟩ : ComponentStats))) :=
    List.perm_insertionSort _ _
  rw [(hperm.map (fun s => s.node_count)).sum_eq, List.map_map]
  have hcomp : ((fun s : ComponentStats => s.node_count) ∘
      (fun c : List Nat => (⟨c, c.length, edgeCountOf g c, c.headD 0⟩ : ComponentStats))) =
      fun c : List Nat => c.length := rfl
  rw [hcomp]
  have hflatperm : (connected_components g).flatten.Perm (List.range g.vertices) := by
    apply (List.perm_ext_iff_of_nodup hflat (List.nodup_range _)).mpr
    intro a
    rw [List.mem_flatten, List.mem_range]
    constructor
    · rintro ⟨c, hc, hac⟩
      exact hbound c hc a hac
    · intro ha
      exact htot a ha
  have hlen := hflatperm.length_eq
  rw [List.length_flatten, List.length_range] at hlen
  rw [← hlen]

/-- Witness for C8 at the spec's 5-vertex example graph. -/
theorem c8_node_count_sum_witness :
    Graph.WF ⟨5, false, false, [[(1, 1)], [(0, 1), (2, 1)], [(1, 1)], [(4, 1)], [(3, 1)]]⟩ ∧
      ((components_with_stats
          ⟨5, false, false, [[(1, 1)], [(0, 1), (2, 1)], [(1, 1)], [(4, 1)], [(3, 1)]]⟩).map
        (fun s => s.node_count)).sum = 5 :=
  ⟨by decide,
    c8_node_count_sum
      ⟨5, false, false, [[(1, 1)], [(0, 1), (2, 1)], [(1, 1)], [(4, 1)], [(3, 1)]]⟩
      (by decide)⟩

/-! ## C4: the edge_count computation -/

lemma countP_flatten {α} (p : α → Bool) (L : List (List α)) :
    (L.flatten).countP p = (L.map (fun l => l.countP p)).sum := by
  rw [List.countP_eq_length_filter, List.filter_flatten, List.length_flatten, List.map_map]
  congr 1
  exact List.map_congr_left (fun a _ => by
    simp [Function.comp, List.countP_eq_length_filter])

lemma sum_map_ite {α} (p : α → Prop) [DecidablePred p] (f : α → Nat) :
    ∀ l : List α, (l.map (fun u => if p u then f u else 0)).sum =
      ((l.filter (fun u => decide (p u))).map f).sum := by
  intro l
  induction l with
  | nil => rfl
  | cons a l ih =>
    rw [List.map_cons, List.sum_cons, ih, List.filter_cons]
    by_cases ha : p a <;> simp [ha]

lemma foldl_add_sum (h : Nat → Nat) :
    ∀ (l : List Nat) (a : Nat), l.foldl (fun acc u => acc + h u) a = a + (l.map h).sum := by
  intro l
  induction l with
  | nil => intro a; simp
  | cons x l ih =>
    intro a
    rw [List.foldl_cons, ih, List.map_cons, List.sum_cons]
    omega

lemma edgeCountOf_global (g : Graph) (hWF : g.WF) (c : List Nat) (hnd : c.Nodup)
    (hb : ∀ v ∈ c, v < g.vertices) :
    edgeCountOf g c = (recordPairs g).countP
      (fun e => decide (e.1 ∈ c) && decide (e.2 ∈ c) &&
        (g.directed || decide (e.1 < e.2))) := by
  have hrhs : (recordPairs g).countP
      (fun e => decide (e.1 ∈ c) && decide (e.2 ∈ c) &&
        (g.directed || decide (e.1 < e.2))) =
      (c.map (fun u => (g.adjacency.getD u []).countP
        (fun p => decide (p.1 ∈ c) && (g.directed || decide (u < p.1))))).sum := by
    rw [recordPairs_eq_range, hWF.1, countP_flatten, List.map_map]
    have hptwise : ∀ u ∈ List.range g.vertices,
        ((fun l => List.countP
            (fun e => decide (e.1 ∈ c) && decide (e.2 ∈ c) &&
              (g.directed || decide (e.1 < e.2))) l) ∘
          (fun u => (g.adjacency.getD u []).map (fun p => (u, p.1)))) u =
          (fun u => if u ∈ c then
            (g.adjacency.getD u []).countP
              (fun p => decide (p.1 ∈ c) && (g.directed || decide (u < p.1)))
            else 0) u := by
      intro u _
      simp only [Function.comp_apply, List.countP_map]
      by_cases hu : u ∈ c
      · rw [if_pos hu]
        refine List.countP_congr ?_
        intro p _
        simp [Function.comp, hu]
      · rw [if_neg hu]
        have : List.countP
            ((fun e => decide (e.1 ∈ c) && decide (e.2 ∈ c) &&
              (g.directed || decide (e.1 < e.2))) ∘ (fun p => (u, p.1)))
            (g.adjacency.getD u []) = List.countP (fun _ => false)
            (g.adjacency.getD u []) := by
          refine List.countP_congr ?_
          intro p _
          simp [Function.comp, hu]
        rw [this]
        simp
    rw [List.map_congr_left hptwise, sum_map_ite (fun u => u ∈ c)]
    have hfperm : ((List.range g.vertices).filter (fun u => decide (u ∈ c))).Perm c := by
      apply (List.perm_ext_iff_of_nodup (List.Nodup.filter _ (List.nodup_range _)) hnd).mpr
      intro a
      rw [List.mem_filter, List.mem_range]
      constructor
      · rintro ⟨-, h⟩
        simpa using h
      · intro h
        exact ⟨hb a h, by simpa using h⟩
    exact (hfperm.map _).sum_eq
  rw [hrhs]
  unfold edgeCountOf
  by_cases hd : g.directed
  · rw [if_pos hd, foldl_add_sum, Nat.zero_add]
    congr 1
    refine List.map_congr_left ?_
    intro u _
    rw [(adjList_getD_perm g u).countP_eq]
    refine List.countP_congr ?_
    intro p _
    simp [hd]
  · rw [if_neg hd, foldl_add_sum, Nat.zero_add]
    congr 1
    refine List.map_congr_left ?_
    intro u _
    rw [(adjList_getD_perm g u).countP_eq]
    refine List.countP_congr ?_
    intro p _
    simp only [Bool.not_eq_true] at hd
    rw [hd]
    simp [Bool.and_comm]

/-- C4: the `edge_count` of every record of `componentsWithStats` counts
exactly the stored records with both endpoints in that component —
restricted to `u < v` records for undirected graphs (each logical edge once)
and all records for directed graphs (the two directions of a mutual pair
separately). -/
theorem c4_edge_count_semantics (g : Graph) (hWF : g.WF) :
    ∀ s ∈ components_with_stats g,
      s.edge_count = (recordPairs g).countP
        (fun e => decide (e.1 ∈ s.vertices) && decide (e.2 ∈ s.vertices) &&
          (g.directed || decide (e.1 < e.2))) := by
  obtain ⟨-, -, hwf2, -, hbound, -, -⟩ := cc_facts g hWF
  intro s hs
  unfold components_with_stats at hs
  rw [List.mem_insertionSort] at hs
  obtain ⟨c, hc, rfl⟩ := List.mem_map.mp hs
  exact edgeCountOf_global g hWF c (hwf2 c hc).2.2 (hbound c hc)

/-- Witness for C4 at the spec's directed 3-vertex example. -/
theorem c4_edge_count_semantics_witness :
    Graph.WF ⟨3, true, false, [[(1, 1)], [(2, 1)], []]⟩ ∧
      ∀ s ∈ components_with_stats ⟨3, true, false, [[(1, 1)], [(2, 1)], []]⟩,
        s.edge_count = (recordPairs ⟨3, true, false, [[(1, 1)], [(2, 1)], []]⟩).countP
          (fun e => decide (e.1 ∈ s.vertices) && decide (e.2 ∈ s.vertices) &&
            (Graph.directed ⟨3, true, false, [[(1, 1)], [(2, 1)], []]⟩ ||
              decide (e.1 < e.2))) :=
  ⟨by decide,
    c4_edge_count_semantics ⟨3, true, false, [[(1, 1)], [(2, 1)], []]⟩ (by decide)⟩
